import Mathlib

/-!
# Smoothie `Config` (src/libs/Config.cpp): in-place configuration store

Shallow embedding of `Config::set_string`, `Config::value` and the config-file
locator.  Bytes are natural numbers (`' '` = 32, `'#'` = 35, `'\r'` = 13,
`'\n'` = 10).  `size_t` and `int` are the 32-bit types of the target
(mbed LPC1768); unsigned arithmetic is taken modulo `2^32` and conversions to
`int` are two's complement.  `get_checksum` lives in `libs/utils`, which is not
part of the translated file, so every definition takes it as the parameter `cs`.
-/

namespace Smoothie

/-- A byte string (`std::string`, or the content of a file). -/
abbrev Bytes := List Nat

/-- Number of values of a 32-bit `size_t`. -/
def SIZE_MOD : Nat := 4294967296

/-- `std::string::npos`, the largest `size_t`. -/
def npos : Nat := 4294967295

/-- Unsigned 32-bit addition. -/
def uadd (a b : Nat) : Nat := (a + b) % SIZE_MOD

/-- Unsigned 32-bit subtraction. -/
def usub (a b : Nat) : Nat := (a % SIZE_MOD + (SIZE_MOD - b % SIZE_MOD)) % SIZE_MOD

/-- Conversion of a 32-bit pattern to `int` (two's complement). -/
def toInt (n : Nat) : Int :=
  if n % SIZE_MOD < 2147483648 then ((n % SIZE_MOD : Nat) : Int)
  else ((n % SIZE_MOD : Nat) : Int) - 4294967296

/-- Index, counted from `i`, of the first element of the list satisfying `p`;
`npos` when there is none. -/
def findAt (p : Nat → Bool) : Bytes → Nat → Nat
  | [], _ => npos
  | c :: rest, i => if p c then i else findAt p rest (i + 1)

/-- `s.find_first_of(chars, pos)`. -/
def find_first_of (s : Bytes) (chars : List Nat) (pos : Nat) : Nat :=
  findAt (fun c => chars.contains c) (s.drop pos) pos

/-- `s.find_first_not_of(chars, pos)`. -/
def find_first_not_of (s : Bytes) (chars : List Nat) (pos : Nat) : Nat :=
  findAt (fun c => !chars.contains c) (s.drop pos) pos

/-- `s.substr(pos, n)`: throws `std::out_of_range` (here `none`) when
`pos > s.size()`. -/
def substr (s : Bytes) (pos n : Nat) : Option Bytes :=
  if pos > s.length then none else some ((s.drop pos).take n)

/-- `s.c_str()` as seen by a C function: the bytes before the first NUL. -/
def c_str (s : Bytes) : Bytes := s.takeWhile (fun c => c != 0)

/-- `fputs(s.c_str(), lp)` after a successful `fseek(lp, start, SEEK_SET)` on a
file opened `"r+"`: the bytes overwrite the file from offset `start` on; a
write that runs past the end extends the file. -/
def fputs_at (file : Bytes) (start : Nat) (s : Bytes) : Bytes :=
  file.take start ++ List.replicate (start - file.length) 0 ++ c_str s
    ++ file.drop (start + (c_str s).length)

/-- The way in which the translated code leaves the behaviour the source
gives it: an uncaught `std::out_of_range` thrown by `substr`. -/
inductive Fault where
  | out_of_range
  deriving DecidableEq

/-- What `set_string` leaves behind: the file and the text sent to
`kernel->serial`. -/
structure Effect where
  file : Bytes
  serial : List String
  deriving DecidableEq

/-- The padding loop `for (int i = value.length(); i < free_space; i++) value += " "`. -/
def pad (value : Bytes) (free_space : Int) : Bytes :=
  value ++ List.replicate (free_space - toInt value.length).toNat 32

/-- The `do ... while (c != EOF)` loop of `Config::set_string`.  `file` is the
whole file, the list argument the bytes not yet returned by `fgetc`, `pos` the
file position and `buffer` the line accumulated so far.  The result of `fseek`
is not looked at: with a negative `start` the seek fails and `fputs` writes at
the current position, just after the `'\n'` that was read.  The literal printed
after the loop holds U+00A0 (bytes c2 a0) after `ERROR:`. -/
def set_string_loop (cs : Bytes → Nat) (check_sum : Nat) (value : Bytes) (file : Bytes) :
    Bytes → Nat → Bytes → Except Fault Effect
  | [], _, _ => .ok ⟨file, ["ERROR:\u00a0configuration key not found\r\n"]⟩
  | c :: rest, pos, buffer =>
    if c = 10 then
      if buffer.headD 0 = 35 then set_string_loop cs check_sum value file rest (pos + 1) []
      else if buffer.length < 3 then set_string_loop cs check_sum value file rest (pos + 1) []
      else
        let begin_key := find_first_not_of buffer [32] 0
        let begin_value := find_first_not_of buffer [32] (find_first_of buffer [32] begin_key)
        match substr buffer begin_key (usub (find_first_of buffer [32] begin_key) begin_key) with
        | none => .error .out_of_range
        | some key =>
          if cs key ≠ check_sum then set_string_loop cs check_sum value file rest (pos + 1) []
          else
            let free_space : Int :=
              toInt (usub (find_first_of buffer [13, 10, 35] (uadd begin_value 1)) begin_value)
            if toInt value.length ≥ free_space then
              .ok ⟨file, ["ERROR: Not enough room for value\r\n"]⟩
            else
              let start : Int :=
                toInt (usub (uadd (usub (pos + 1) buffer.length) begin_value) 1)
              let offset : Nat := if start < 0 then pos + 1 else start.toNat
              .ok ⟨fputs_at file offset (pad value free_space), []⟩
    else set_string_loop cs check_sum value file rest (pos + 1) (buffer ++ [c])

/-- `Config::set_string(check_sum, value)` on an active config file with the
given content. -/
def set_string (cs : Bytes → Nat) (file : Bytes) (check_sum : Nat) (value : Bytes) :
    Except Fault Effect :=
  set_string_loop cs check_sum value file file 0 []

/-- The record returned by the reader. -/
structure ConfigValue where
  check_sum : Nat
  found : Bool
  key : Bytes
  value : Bytes
  deriving DecidableEq

/-- The `do ... while (c != EOF)` loop of `Config::value`. -/
def value_loop (cs : Bytes → Nat) (check_sum : Nat) :
    Bytes → Bytes → Except Fault ConfigValue
  | [], _ => .ok ⟨check_sum, false, [], []⟩
  | c :: rest, buffer =>
    if c = 10 then
      if buffer.headD 0 = 35 then value_loop cs check_sum rest []
      else if buffer.length < 3 then value_loop cs check_sum rest []
      else
        let begin_key := find_first_not_of buffer [32] 0
        let begin_value := find_first_not_of buffer [32] (find_first_of buffer [32] begin_key)
        match substr buffer begin_key (usub (find_first_of buffer [32] begin_key) begin_key) with
        | none => .error .out_of_range
        | some key =>
          if cs key ≠ check_sum then value_loop cs check_sum rest []
          else
            match substr buffer begin_value
                (usub (find_first_of buffer [13, 10, 35, 32] (uadd begin_value 1)) begin_value) with
            | none => .error .out_of_range
            | some v => .ok ⟨check_sum, true, key, v⟩
    else value_loop cs check_sum rest (buffer ++ [c])

/-- `Config::value(check_sum)` on an active config file with the given
content. -/
def value (cs : Bytes → Nat) (file : Bytes) (check_sum : Nat) : Except Fault ConfigValue :=
  value_loop cs check_sum file []

/-- Body of the `if (c == '\n')` branch of the loop of `Config::set_string`
for a complete line `buffer` whose terminating `'\n'` sits at file offset
`pos`; `next` is what the loop yields when the line is passed over. -/
def set_line (cs : Bytes → Nat) (check_sum : Nat) (value : Bytes) (file : Bytes)
    (buffer : Bytes) (pos : Nat) (next : Except Fault Effect) : Except Fault Effect :=
  if buffer.headD 0 = 35 then next
  else if buffer.length < 3 then next
  else
    let begin_key := find_first_not_of buffer [32] 0
    let begin_value := find_first_not_of buffer [32] (find_first_of buffer [32] begin_key)
    match substr buffer begin_key (usub (find_first_of buffer [32] begin_key) begin_key) with
    | none => .error .out_of_range
    | some key =>
      if cs key ≠ check_sum then next
      else
        let free_space : Int :=
          toInt (usub (find_first_of buffer [13, 10, 35] (uadd begin_value 1)) begin_value)
        if toInt value.length ≥ free_space then
          .ok ⟨file, ["ERROR: Not enough room for value\r\n"]⟩
        else
          let start : Int :=
            toInt (usub (uadd (usub (pos + 1) buffer.length) begin_value) 1)
          let offset : Nat := if start < 0 then pos + 1 else start.toNat
          .ok ⟨fputs_at file offset (pad value free_space), []⟩

/-- Body of the `if (c == '\n')` branch of the loop of `Config::value` for a
complete line `buffer`; `next` is what the loop yields when the line is passed
over. -/
def value_line (cs : Bytes → Nat) (check_sum : Nat) (buffer : Bytes)
    (next : Except Fault ConfigValue) : Except Fault ConfigValue :=
  if buffer.headD 0 = 35 then next
  else if buffer.length < 3 then next
  else
    let begin_key := find_first_not_of buffer [32] 0
    let begin_value := find_first_not_of buffer [32] (find_first_of buffer [32] begin_key)
    match substr buffer begin_key (usub (find_first_of buffer [32] begin_key) begin_key) with
    | none => .error .out_of_range
    | some key =>
      if cs key ≠ check_sum then next
      else
        match substr buffer begin_value
            (usub (find_first_of buffer [13, 10, 35, 32] (uadd begin_value 1)) begin_value) with
        | none => .error .out_of_range
        | some v => .ok ⟨check_sum, true, key, v⟩

/-! ## The file format, in the words of the specification -/

/-- A file made of complete lines, each followed by `'\n'`. -/
def unlines : List Bytes → Bytes
  | [] => []
  | l :: ls => l ++ 10 :: unlines ls

/-- The key of a line: the longest run of non-space characters starting at the
first non-space column; a line of spaces only has none. -/
def key_of (line : Bytes) : Option Bytes :=
  match line.dropWhile (fun c => decide (c = 32)) with
  | [] => none
  | c :: t => some ((c :: t).takeWhile (fun c => !decide (c = 32)))

/-- What follows the key and the spaces after it: the line from the first
non-space character after the key on. -/
def value_tail (line : Bytes) : Bytes :=
  ((line.dropWhile (fun c => decide (c = 32))).dropWhile (fun c => !decide (c = 32))).dropWhile
    (fun c => decide (c = 32))

/-- Offset in the line of the first non-space character after the key. -/
def value_offset (line : Bytes) : Nat := line.length - (value_tail line).length

/-- Terminators of the writable value span: `'#'`, `'\r'` and `'\n'`. -/
def writer_stop (c : Nat) : Bool := decide (c = 13) || (decide (c = 10) || decide (c = 35))

/-- Terminators of the value for the reader: space, `'#'`, `'\r'` and `'\n'`. -/
def reader_stop (c : Nat) : Bool :=
  decide (c = 13) || (decide (c = 10) || (decide (c = 35) || decide (c = 32)))

/-- The writable value span of a line: its first value character and what
follows up to the first terminator or the end of the line. -/
def value_span (line : Bytes) : Bytes :=
  match value_tail line with
  | [] => []
  | c :: s => c :: s.takeWhile (fun x => !writer_stop x)

/-- What follows the value span on the line: empty when the span runs to the
end of the line, else the terminator (`'#'` or `'\r'`) and the rest. -/
def after_span (line : Bytes) : Bytes :=
  match value_tail line with
  | [] => []
  | _ :: s => s.dropWhile (fun x => !writer_stop x)

/-- The value of a line as the reader defines it: the first value character
and what follows up to the first space, `'#'`, `'\r'` or `'\n'`. -/
def read_value (line : Bytes) : Bytes :=
  match value_tail line with
  | [] => []
  | c :: s => c :: s.takeWhile (fun x => !reader_stop x)

/-- A line the scan for hash `h` passes over: a comment, a line shorter than
3 bytes, or a line whose key has another hash. -/
def passed (cs : Bytes → Nat) (h : Nat) (line : Bytes) : Bool :=
  decide (line.headD 0 = 35) || decide (line.length < 3) ||
    (match key_of line with
     | some k => !decide (cs k = h)
     | none => false)

/-- An entry for hash `h`: not a comment, at least 3 bytes, and its key hashes
to `h`. -/
def is_entry (cs : Bytes → Nat) (h : Nat) (line : Bytes) : Bool :=
  !decide (line.headD 0 = 35) && decide (3 ≤ line.length) &&
    (match key_of line with
     | some k => decide (cs k = h)
     | none => false)

/-- The file consists of the complete lines `pre`, all passed over by the scan
for `h`, then the line `line`, the first entry for `h`, its `'\n'`, and `post`. -/
def first_entry (cs : Bytes → Nat) (h : Nat) (pre : List Bytes) (line post file : Bytes) :
    Prop :=
  file = unlines pre ++ line ++ 10 :: post ∧
    (∀ l ∈ pre, 10 ∉ l ∧ passed cs h l = true) ∧ 10 ∉ line ∧ is_entry cs h line = true

instance (cs : Bytes → Nat) (h : Nat) (pre : List Bytes) (line post file : Bytes) :
    Decidable (first_entry cs h pre line post file) := by
  unfold first_entry; infer_instance

/-- A stand-in for `get_checksum` used to run the model on concrete files: a
16-bit multiplicative rolling hash. -/
def sample_checksum (s : Bytes) : Nat := s.foldl (fun h c => (h * 31 + c) % 65536) 0

/-! ## The config-file locator -/

/-- The two members of `Config` the locator uses.  The constructor sets
`config_file_found = false` and leaves `config_file` empty. -/
structure Config where
  config_file_found : Bool
  config_file : String
  deriving DecidableEq

/-- The object as `Config::Config()` leaves it. -/
def Config.init : Config := ⟨false, ""⟩

/-- `Config::try_config_file(candidate)`: `opens` tells which paths `fopen`
opens for reading.  The `fclose` that follows has no effect on the object. -/
def try_config_file (opens : String → Bool) (c : Config) (candidate : String) : Config :=
  if opens candidate then ⟨true, candidate⟩ else c

/-- `Config::has_config_file()`: the returned flag and the object afterwards. -/
def has_config_file (opens : String → Bool) (c : Config) : Bool × Config :=
  if c.config_file_found then (true, c)
  else
    let c1 := try_config_file opens c "/local/config"
    let c2 := try_config_file opens c1 "/sd/config"
    if c2.config_file_found then (true, c2) else (false, c2)

/-- `Config::get_config_file()`: the returned path (`none` when control
reaches the end of the function without a `return`), the text written by
`printf`, and the object afterwards. -/
def get_config_file (opens : String → Bool) (c : Config) :
    Option String × List String × Config :=
  if c.config_file_found then (some c.config_file, [], c)
  else
    let r := has_config_file opens c
    if r.1 then (some r.2.config_file, [], r.2)
    else (none, ["ERROR: no config file found\r\n"], r.2)

/-! ## The object-level writer and the console commands -/

/-- Reasons for which the object-level writer leaves defined behaviour before
it reaches its loop: `get_config_file()` ended without a `return`, so the path
handed to `fopen` is indeterminate, or `fopen` returned a null pointer that is
then passed to `fgetc`. -/
inductive Stop where
  | no_path
  | null_file
  | fault (f : Fault)
  deriving DecidableEq

/-- What a call on the `Config` object leaves behind: the object, the text
written with `printf`, and the outcome of the body. -/
structure Run where
  config : Config
  stdout : List String
  result : Except Stop Effect

/-- `Config::set_string(check_sum, value)` from its first statement on: `disk`
gives the content of every path that `fopen` can open.  There is no test of
the path returned by `get_config_file()` nor of the pointer returned by
`fopen` before the loop calls `fgetc`. -/
def Config.set_string (cs : Bytes → Nat) (disk : String → Option Bytes) (c : Config)
    (check_sum : Nat) (value : Bytes) : Run :=
  let r := get_config_file (fun p => (disk p).isSome) c
  match r.1 with
  | none => ⟨r.2.2, r.2.1, .error .no_path⟩
  | some path =>
    match disk path with
    | none => ⟨r.2.2, r.2.1, .error .null_file⟩
    | some file =>
      match Smoothie.set_string cs file check_sum value with
      | .error f => ⟨r.2.2, r.2.1, .error (.fault f)⟩
      | .ok e => ⟨r.2.2, r.2.1, .ok e⟩

/-- The paths `has_config_file()` hands to `fopen`, in order. -/
def has_config_file_probes (c : Config) : List String :=
  if c.config_file_found then [] else ["/local/config", "/sd/config"]

/-- The paths `get_config_file()` hands to `fopen`, in order. -/
def get_config_file_probes (c : Config) : List String :=
  if c.config_file_found then [] else has_config_file_probes c

/-- Events published through `kernel->call_event`. -/
inductive Event where
  | ON_CONFIG_RELOAD
  deriving DecidableEq

/-- What a console command leaves behind: the events published, the byte
strings sent to `kernel->serial`, one per `printf`, and the config file. -/
structure Console where
  events : List Event
  serial : List Bytes
  file : Bytes
  deriving DecidableEq

/-- The bytes of a string literal. -/
def text (s : String) : Bytes := s.toList.map Char.toNat

/-- `Config::config_get_command(parameter)` on an active config file: `printf`
with `%s` prints the value up to its first NUL, then `"\r\n"`. -/
def config_get_command (cs : Bytes → Nat) (file : Bytes) (parameter : Bytes) :
    Except Fault Console :=
  match value cs file (cs parameter) with
  | .error f => .error f
  | .ok r => .ok ⟨[], [c_str r.value ++ [13, 10]], file⟩

/-- `Config::config_set_command(parameters)`; `shift_parameter` (from
`libs/utils`) returns the first token and what is left of its argument. -/
def config_set_command (cs : Bytes → Nat) (shift_parameter : Bytes → Bytes × Bytes)
    (file : Bytes) (parameters : Bytes) : Except Fault Console :=
  let setting := shift_parameter parameters
  let value := shift_parameter setting.2
  match set_string cs file (cs setting.1) value.1 with
  | .error f => .error f
  | .ok e => .ok ⟨[], e.serial.map text, e.file⟩

/-- `Config::config_load_command(parameters)`. -/
def config_load_command (file : Bytes) (_parameters : Bytes) : Except Fault Console :=
  .ok ⟨[Event.ON_CONFIG_RELOAD], [], file⟩

/-- The three `case` labels of the `switch` in `on_console_line_received`
(constants of `Config.h`). -/
structure Verbs where
  config_get_checksum : Nat
  config_set_checksum : Nat
  config_load_checksum : Nat

/-- `Config::on_console_line_received(argument)` on an active config file;
`get_arguments` and `shift_parameter` come from `libs/utils`. -/
def on_console_line_received (cs : Bytes → Nat) (verbs : Verbs)
    (get_arguments : Bytes → Bytes) (shift_parameter : Bytes → Bytes × Bytes)
    (file : Bytes) (possible_command : Bytes) : Except Fault Console :=
  match substr possible_command 0 (find_first_of possible_command [32, 13, 10] 0) with
  | none => .error .out_of_range
  | some verb =>
    let check_sum := cs verb
    if check_sum = verbs.config_get_checksum then
      config_get_command cs file (get_arguments possible_command)
    else if check_sum = verbs.config_set_checksum then
      config_set_command cs shift_parameter file (get_arguments possible_command)
    else if check_sum = verbs.config_load_checksum then
      config_load_command file (get_arguments possible_command)
    else .ok ⟨[], [], file⟩

/-- The verb `config-load`. -/
def config_load_verb : Bytes := [99, 111, 110, 102, 105, 103, 45, 108, 111, 97, 100]

/-! ## The loops, line by line -/

theorem set_string_loop_cons (cs : Bytes → Nat) (h : Nat) (v file : Bytes) (c : Nat)
    (rest : Bytes) (pos : Nat) (buf : Bytes) :
    set_string_loop cs h v file (c :: rest) pos buf =
      if c = 10 then
        set_line cs h v file buf pos (set_string_loop cs h v file rest (pos + 1) [])
      else set_string_loop cs h v file rest (pos + 1) (buf ++ [c]) := by
  rw [set_string_loop]
  rfl

theorem value_loop_cons (cs : Bytes → Nat) (h : Nat) (c : Nat) (rest buf : Bytes) :
    value_loop cs h (c :: rest) buf =
      if c = 10 then value_line cs h buf (value_loop cs h rest [])
      else value_loop cs h rest (buf ++ [c]) := by
  rw [value_loop]
  rfl

/-- Reading a complete line: the bytes up to the next `'\n'` are gathered in
the buffer and the line body runs with the position of that `'\n'`. -/
theorem set_string_loop_line (cs : Bytes → Nat) (h : Nat) (v file : Bytes) (l : Bytes)
    (hl : 10 ∉ l) (rest : Bytes) (pos : Nat) (buf : Bytes) :
    set_string_loop cs h v file (l ++ 10 :: rest) pos buf =
      set_line cs h v file (buf ++ l) (pos + l.length)
        (set_string_loop cs h v file rest (pos + l.length + 1) []) := by
  induction l generalizing pos buf with
  | nil => simp [set_string_loop_cons]
  | cons c l ih =>
    have hc : c ≠ 10 := fun e => hl (by simp [e])
    have hl2 : 10 ∉ l := fun e => hl (by simp [e])
    rw [List.cons_append, set_string_loop_cons, if_neg hc, ih hl2]
    simp [Nat.add_comm, Nat.add_left_comm, Nat.add_assoc]

theorem value_loop_line (cs : Bytes → Nat) (h : Nat) (l : Bytes)
    (hl : 10 ∉ l) (rest : Bytes) (buf : Bytes) :
    value_loop cs h (l ++ 10 :: rest) buf =
      value_line cs h (buf ++ l) (value_loop cs h rest []) := by
  induction l generalizing buf with
  | nil => simp [value_loop_cons]
  | cons c l ih =>
    have hc : c ≠ 10 := fun e => hl (by simp [e])
    have hl2 : 10 ∉ l := fun e => hl (by simp [e])
    rw [List.cons_append, value_loop_cons, if_neg hc, ih hl2]
    simp

/-- An unterminated tail (no `'\n'` before end-of-file) is never handed to the
line body: the writer ends with "key not found". -/
theorem set_string_loop_tail (cs : Bytes → Nat) (h : Nat) (v file : Bytes) (l : Bytes)
    (hl : 10 ∉ l) (pos : Nat) (buf : Bytes) :
    set_string_loop cs h v file l pos buf =
      .ok ⟨file, ["ERROR:\u00a0configuration key not found\r\n"]⟩ := by
  induction l generalizing pos buf with
  | nil => rw [set_string_loop]
  | cons c l ih =>
    have hc : c ≠ 10 := fun e => hl (by simp [e])
    have hl2 : 10 ∉ l := fun e => hl (by simp [e])
    rw [set_string_loop_cons, if_neg hc, ih hl2]

theorem value_loop_tail (cs : Bytes → Nat) (h : Nat) (l : Bytes)
    (hl : 10 ∉ l) (buf : Bytes) :
    value_loop cs h l buf = .ok ⟨h, false, [], []⟩ := by
  induction l generalizing buf with
  | nil => rw [value_loop]
  | cons c l ih =>
    have hc : c ≠ 10 := fun e => hl (by simp [e])
    have hl2 : 10 ∉ l := fun e => hl (by simp [e])
    rw [value_loop_cons, if_neg hc, ih hl2]

/-! ## Machine arithmetic -/

theorem usub_eq (a b : Nat) (hb : b ≤ a) (ha : a < 4294967296) : usub a b = a - b := by
  unfold usub SIZE_MOD; omega

theorem usub_wrap (a b : Nat) (hb : a < b) (hb2 : b < 4294967296) :
    usub a b = a + 4294967296 - b := by
  unfold usub SIZE_MOD; omega

theorem uadd_eq (a b : Nat) (h : a + b < 4294967296) : uadd a b = a + b := by
  unfold uadd SIZE_MOD; omega

theorem uadd_npos_one : uadd npos 1 = 0 := by decide

theorem toInt_eq (n : Nat) (h : n < 2147483648) : toInt n = (n : Int) := by
  unfold toInt SIZE_MOD
  have : n % 4294967296 = n := by omega
  rw [this, if_pos h]

theorem toInt_neg (n : Nat) (h : 2147483648 ≤ n) (h2 : n < 4294967296) :
    toInt n = (n : Int) - 4294967296 := by
  unfold toInt SIZE_MOD
  have : n % 4294967296 = n := by omega
  rw [this, if_neg (by omega)]

/-! ## Searching a string -/

theorem findAt_range (p : Nat → Bool) (l : Bytes) (i : Nat) :
    findAt p l i = npos ∨ (i ≤ findAt p l i ∧ findAt p l i < i + l.length) := by
  induction l generalizing i with
  | nil => left; rfl
  | cons c l ih =>
    unfold findAt
    split
    · right; simp
    · rcases ih (i + 1) with h | h
      · left; exact h
      · right; simp only [List.length_cons]; omega

theorem findAt_eq (p : Nat → Bool) (l : Bytes) (i : Nat) :
    findAt p l i =
      if l.dropWhile (fun c => !p c) = [] then npos
      else i + (l.takeWhile (fun c => !p c)).length := by
  induction l generalizing i with
  | nil => simp [findAt]
  | cons c l ih =>
    unfold findAt
    by_cases hc : p c = true
    · simp [hc, List.dropWhile, List.takeWhile]
    · have hc2 : p c = false := by simpa using hc
      simp only [hc2, List.dropWhile, List.takeWhile, Bool.not_false, if_false, ih (i + 1),
        List.length_cons, Bool.false_eq_true]
      split <;> omega

theorem find_first_of_range (s : Bytes) (chars : List Nat) (pos : Nat) :
    find_first_of s chars pos = npos ∨
      (pos ≤ find_first_of s chars pos ∧ find_first_of s chars pos < s.length) := by
  unfold find_first_of
  rcases findAt_range (fun c => chars.contains c) (s.drop pos) pos with h | h
  · left; exact h
  · right
    have : (s.drop pos).length = s.length - pos := List.length_drop pos s
    by_cases hp : pos ≤ s.length
    · omega
    · have : (s.drop pos).length = 0 := by omega
      omega

theorem find_first_not_of_range (s : Bytes) (chars : List Nat) (pos : Nat) :
    find_first_not_of s chars pos = npos ∨
      (pos ≤ find_first_not_of s chars pos ∧ find_first_not_of s chars pos < s.length) := by
  unfold find_first_not_of
  rcases findAt_range (fun c => !chars.contains c) (s.drop pos) pos with h | h
  · left; exact h
  · right
    have : (s.drop pos).length = s.length - pos := List.length_drop pos s
    by_cases hp : pos ≤ s.length
    · omega
    · have : (s.drop pos).length = 0 := by omega
      omega

theorem drop_takeWhile_length (p : Nat → Bool) (l : Bytes) :
    l.drop (l.takeWhile p).length = l.dropWhile p := by
  have h := List.drop_left (l.takeWhile p) (l.dropWhile p)
  rwa [List.takeWhile_append_dropWhile] at h

theorem find_first_not_of_space (s : Bytes) (pos : Nat) :
    find_first_not_of s [32] pos =
      if (s.drop pos).dropWhile (fun c => decide (c = 32)) = [] then npos
      else pos + ((s.drop pos).takeWhile (fun c => decide (c = 32))).length := by
  unfold find_first_not_of
  rw [findAt_eq]
  simp

theorem find_first_of_space (s : Bytes) (pos : Nat) :
    find_first_of s [32] pos =
      if (s.drop pos).dropWhile (fun c => !decide (c = 32)) = [] then npos
      else pos + ((s.drop pos).takeWhile (fun c => !decide (c = 32))).length := by
  unfold find_first_of
  rw [findAt_eq]
  simp

theorem find_first_of_writer (s : Bytes) (pos : Nat) :
    find_first_of s [13, 10, 35] pos =
      if (s.drop pos).dropWhile (fun c => !writer_stop c) = [] then npos
      else pos + ((s.drop pos).takeWhile (fun c => !writer_stop c)).length := by
  unfold find_first_of
  rw [findAt_eq]
  simp [writer_stop]

theorem find_first_of_reader (s : Bytes) (pos : Nat) :
    find_first_of s [13, 10, 35, 32] pos =
      if (s.drop pos).dropWhile (fun c => !reader_stop c) = [] then npos
      else pos + ((s.drop pos).takeWhile (fun c => !reader_stop c)).length := by
  unfold find_first_of
  rw [findAt_eq]
  simp [reader_stop]

theorem takeWhile_length_add (p : Nat → Bool) (l : Bytes) :
    (l.takeWhile p).length + (l.dropWhile p).length = l.length := by
  have h := List.length_append (l.takeWhile p) (l.dropWhile p)
  rw [List.takeWhile_append_dropWhile] at h
  exact h.symm

theorem key_of_some (line k : Bytes) (hk : key_of line = some k) :
    line.dropWhile (fun c => decide (c = 32)) ≠ [] ∧
      k = (line.dropWhile (fun c => decide (c = 32))).takeWhile (fun c => !decide (c = 32)) := by
  unfold key_of at hk
  split at hk
  · exact absurd hk (by simp)
  · rename_i c t ht
    rw [ht]
    refine ⟨by simp, ?_⟩
    exact (Option.some.inj hk).symm

theorem begin_key_eq (line : Bytes) (ht : line.dropWhile (fun c => decide (c = 32)) ≠ []) :
    find_first_not_of line [32] 0 = (line.takeWhile (fun c => decide (c = 32))).length := by
  rw [find_first_not_of_space, List.drop_zero, if_neg ht, Nat.zero_add]

theorem begin_key_none (line : Bytes) (ht : line.dropWhile (fun c => decide (c = 32)) = []) :
    find_first_not_of line [32] 0 = npos := by
  rw [find_first_not_of_space, List.drop_zero, if_pos ht]

/-- The key the code extracts from a line is the key of the line. -/
theorem line_key (line k : Bytes) (hk : key_of line = some k) (hlen : line.length < npos) :
    substr line (find_first_not_of line [32] 0)
      (usub (find_first_of line [32] (find_first_not_of line [32] 0))
        (find_first_not_of line [32] 0)) = some k := by
  obtain ⟨ht, rfl⟩ := key_of_some line k hk
  have hlen2 : line.length < 4294967295 := hlen
  rw [begin_key_eq line ht, find_first_of_space, drop_takeWhile_length]
  have h1 := takeWhile_length_add (fun c => decide (c = 32)) line
  have h2 := takeWhile_length_add (fun c => !decide (c = 32))
    (line.dropWhile (fun c => decide (c = 32)))
  unfold substr
  rw [if_neg (by omega), drop_takeWhile_length]
  congr 1
  split
  · rename_i hu
    rw [hu] at h2
    have h3 := List.takeWhile_append_dropWhile (fun c => !decide (c = 32))
      (line.dropWhile (fun c => decide (c = 32)))
    rw [hu, List.append_nil] at h3
    rw [h3]
    apply List.take_of_length_le
    rw [usub_eq _ _ (by unfold npos; omega) (by unfold npos; omega)]
    unfold npos; simp at h2; omega
  · rw [usub_eq _ _ (by omega) (by omega), Nat.add_sub_cancel_left]
    have h3 := List.take_left
      ((line.dropWhile (fun c => decide (c = 32))).takeWhile (fun c => !decide (c = 32)))
      ((line.dropWhile (fun c => decide (c = 32))).dropWhile (fun c => !decide (c = 32)))
    rwa [List.takeWhile_append_dropWhile] at h3

/-- A line of spaces only makes `substr` throw. -/
theorem line_key_none (line : Bytes) (hk : key_of line = none) (hlen : line.length < npos) (n : Nat) :
    substr line (find_first_not_of line [32] 0) n = none := by
  have ht : line.dropWhile (fun c => decide (c = 32)) = [] := by
    unfold key_of at hk
    split at hk
    · assumption
    · exact absurd hk (by simp)
  rw [begin_key_none line ht]
  unfold substr
  rw [if_pos hlen]

theorem value_tail_drop (line : Bytes) : line.drop (value_offset line) = value_tail line := by
  unfold value_offset value_tail
  have h1 := takeWhile_length_add (fun c => decide (c = 32)) line
  have h2 := takeWhile_length_add (fun c => !decide (c = 32))
    (line.dropWhile (fun c => decide (c = 32)))
  have h3 := takeWhile_length_add (fun c => decide (c = 32))
    ((line.dropWhile (fun c => decide (c = 32))).dropWhile (fun c => !decide (c = 32)))
  have e : line.length - (((line.dropWhile (fun c => decide (c = 32))).dropWhile
      (fun c => !decide (c = 32))).dropWhile (fun c => decide (c = 32))).length =
      (line.takeWhile (fun c => decide (c = 32))).length +
      (((line.dropWhile (fun c => decide (c = 32))).takeWhile (fun c => !decide (c = 32))).length +
      (((line.dropWhile (fun c => decide (c = 32))).dropWhile
        (fun c => !decide (c = 32))).takeWhile (fun c => decide (c = 32))).length) := by omega
  rw [e, ← List.drop_drop, ← List.drop_drop, drop_takeWhile_length, drop_takeWhile_length,
    drop_takeWhile_length]

/-- The code's `begin_value` on a line with a key. -/
theorem line_begin_value (line k : Bytes) (hk : key_of line = some k) (hlen : line.length < npos) :
    find_first_not_of line [32] (find_first_of line [32] (find_first_not_of line [32] 0)) =
      if value_tail line = [] then npos else value_offset line := by
  obtain ⟨ht, -⟩ := key_of_some line k hk
  have hlen2 : line.length < 4294967295 := hlen
  rw [begin_key_eq line ht, find_first_of_space, drop_takeWhile_length]
  have h1 := takeWhile_length_add (fun c => decide (c = 32)) line
  have h2 := takeWhile_length_add (fun c => !decide (c = 32))
    (line.dropWhile (fun c => decide (c = 32)))
  have h3 := takeWhile_length_add (fun c => decide (c = 32))
    ((line.dropWhile (fun c => decide (c = 32))).dropWhile (fun c => !decide (c = 32)))
  by_cases hu : (line.dropWhile (fun c => decide (c = 32))).dropWhile (fun c => !decide (c = 32)) = []
  · rw [if_pos hu, find_first_not_of_space]
    have : line.drop npos = [] := List.drop_of_length_le (by omega)
    rw [this]
    have hv : value_tail line = [] := by unfold value_tail; rw [hu]; rfl
    simp [hv]
  · rw [if_neg hu, find_first_not_of_space, ← List.drop_drop, drop_takeWhile_length,
      drop_takeWhile_length]
    have hv : value_tail line = ((line.dropWhile (fun c => decide (c = 32))).dropWhile
      (fun c => !decide (c = 32))).dropWhile (fun c => decide (c = 32)) := rfl
    rw [← hv]
    split
    · rfl
    · unfold value_offset
      rw [hv]
      omega

/-! ## Lines the scan passes over -/

theorem passed_cases (cs : Bytes → Nat) (h : Nat) (l : Bytes) (hp : passed cs h l = true) :
    l.headD 0 = 35 ∨ l.length < 3 ∨ ∃ k, key_of l = some k ∧ cs k ≠ h := by
  unfold passed at hp
  simp only [Bool.or_eq_true, decide_eq_true_eq] at hp
  rcases hp with (h1 | h2) | h3
  · exact Or.inl h1
  · exact Or.inr (Or.inl h2)
  · right; right
    cases hk : key_of l with
    | none => rw [hk] at h3; exact absurd h3 (by simp)
    | some k =>
      rw [hk] at h3
      exact ⟨k, rfl, by simpa using h3⟩

theorem set_line_passed (cs : Bytes → Nat) (h : Nat) (v file l : Bytes) (pos : Nat)
    (next : Except Fault Effect) (hp : passed cs h l = true) (hlen : l.length < npos) :
    set_line cs h v file l pos next = next := by
  unfold set_line
  by_cases h1 : l.headD 0 = 35
  · rw [if_pos h1]
  rw [if_neg h1]
  by_cases h2 : l.length < 3
  · rw [if_pos h2]
  rw [if_neg h2]
  rcases passed_cases cs h l hp with h3 | h3 | ⟨k, hk, hne⟩
  · exact absurd h3 h1
  · exact absurd h3 h2
  · simp only [line_key l k hk hlen]
    rw [if_pos hne]

theorem value_line_passed (cs : Bytes → Nat) (h : Nat) (l : Bytes)
    (next : Except Fault ConfigValue) (hp : passed cs h l = true) (hlen : l.length < npos) :
    value_line cs h l next = next := by
  unfold value_line
  by_cases h1 : l.headD 0 = 35
  · rw [if_pos h1]
  rw [if_neg h1]
  by_cases h2 : l.length < 3
  · rw [if_pos h2]
  rw [if_neg h2]
  rcases passed_cases cs h l hp with h3 | h3 | ⟨k, hk, hne⟩
  · exact absurd h3 h1
  · exact absurd h3 h2
  · simp only [line_key l k hk hlen]
    rw [if_pos hne]

theorem unlines_length_le (pre : List Bytes) (l : Bytes) (hl : l ∈ pre) :
    l.length < (unlines pre).length := by
  induction pre with
  | nil => cases hl
  | cons a pre ih =>
    simp only [unlines, List.length_append, List.length_cons]
    rcases List.mem_cons.mp hl with rfl | h
    · omega
    · have := ih h; omega

/-- The writer's scan runs through passed lines and resumes after them. -/
theorem set_string_loop_passed (cs : Bytes → Nat) (h : Nat) (v file : Bytes) (pre : List Bytes)
    (hpre : ∀ l ∈ pre, 10 ∉ l ∧ passed cs h l = true) (hlen : (unlines pre).length < npos)
    (rest : Bytes) (pos : Nat) :
    set_string_loop cs h v file (unlines pre ++ rest) pos [] =
      set_string_loop cs h v file rest (pos + (unlines pre).length) [] := by
  induction pre generalizing pos with
  | nil => simp [unlines]
  | cons l pre ih =>
    have hl := hpre l (List.mem_cons_self _ _)
    have hlen1 : (unlines (l :: pre)).length = l.length + 1 + (unlines pre).length := by
      simp [unlines]; omega
    have e : unlines (l :: pre) ++ rest = l ++ 10 :: (unlines pre ++ rest) := by
      simp [unlines]
    rw [e, set_string_loop_line cs h v file l hl.1, List.nil_append,
      set_line_passed cs h v file l _ _ hl.2 (by omega),
      ih (fun x hx => hpre x (List.mem_cons_of_mem _ hx)) (by omega), hlen1]
    congr 1
    omega

/-- The reader's scan runs through passed lines and resumes after them. -/
theorem value_loop_passed (cs : Bytes → Nat) (h : Nat) (pre : List Bytes)
    (hpre : ∀ l ∈ pre, 10 ∉ l ∧ passed cs h l = true) (hlen : (unlines pre).length < npos)
    (rest : Bytes) :
    value_loop cs h (unlines pre ++ rest) [] = value_loop cs h rest [] := by
  induction pre with
  | nil => simp [unlines]
  | cons l pre ih =>
    have hl := hpre l (List.mem_cons_self _ _)
    have hlen1 : (unlines (l :: pre)).length = l.length + 1 + (unlines pre).length := by
      simp [unlines]; omega
    have e : unlines (l :: pre) ++ rest = l ++ 10 :: (unlines pre ++ rest) := by
      simp [unlines]
    rw [e, value_loop_line cs h l hl.1, List.nil_append,
      value_line_passed cs h l _ hl.2 (by omega),
      ih (fun x hx => hpre x (List.mem_cons_of_mem _ hx)) (by omega)]

/-! ## The first entry for a hash -/

theorem entry_cases (cs : Bytes → Nat) (h : Nat) (l : Bytes) (hp : is_entry cs h l = true) :
    l.headD 0 ≠ 35 ∧ 3 ≤ l.length ∧ ∃ k, key_of l = some k ∧ cs k = h := by
  unfold is_entry at hp
  simp only [Bool.and_eq_true, decide_eq_true_eq, Bool.not_eq_true', decide_eq_false_iff_not]
    at hp
  refine ⟨hp.1.1, hp.1.2, ?_⟩
  cases hk : key_of l with
  | none => rw [hk] at hp; exact absurd hp.2 (by simp)
  | some k =>
    rw [hk] at hp
    exact ⟨k, rfl, by simpa using hp.2⟩

theorem value_offset_lt (line : Bytes) (hv : value_tail line ≠ []) :
    value_offset line < line.length := by
  have h := value_tail_drop line
  have hl : (line.drop (value_offset line)).length = line.length - value_offset line :=
    List.length_drop _ _
  rw [h] at hl
  have : 0 < (value_tail line).length := List.length_pos.mpr hv
  omega

theorem drop_succ_value (line : Bytes) (c : Nat) (s : Bytes) (hv : value_tail line = c :: s) :
    line.drop (value_offset line + 1) = s := by
  rw [← List.drop_drop, value_tail_drop, hv]
  rfl

theorem value_span_length (line : Bytes) (c : Nat) (s : Bytes) (hv : value_tail line = c :: s) :
    (value_span line).length = 1 + (s.takeWhile (fun x => !writer_stop x)).length := by
  unfold value_span; rw [hv]; simp; omega

theorem after_span_eq (line : Bytes) (c : Nat) (s : Bytes) (hv : value_tail line = c :: s) :
    after_span line = s.dropWhile (fun x => !writer_stop x) := by
  unfold after_span; rw [hv]

/-- What the writer does on the first entry for `h` when the line has a value:
it refuses when the value span runs to the end of the line or is too short,
and else overwrites the span. -/
theorem set_line_entry (cs : Bytes → Nat) (h : Nat) (v file line : Bytes) (pos : Nat)
    (next : Except Fault Effect) (he : is_entry cs h line = true)
    (hv : value_tail line ≠ []) (hpos : line.length ≤ pos) (hsmall : pos < 2147483648)
    (hvl : v.length < 2147483648) :
    set_line cs h v file line pos next =
      if after_span line = [] ∨ (value_span line).length ≤ v.length then
        .ok ⟨file, ["ERROR: Not enough room for value\r\n"]⟩
      else
        .ok ⟨fputs_at file (pos - line.length + value_offset line)
          (pad v ((value_span line).length : Nat)), []⟩ := by
  obtain ⟨h1, h2, k, hk, hck⟩ := entry_cases cs h line he
  obtain ⟨c, s, hcs⟩ := List.exists_cons_of_ne_nil hv
  have hlen : line.length < npos := by unfold npos; omega
  have hbv := value_offset_lt line hv
  unfold set_line
  rw [if_neg h1, if_neg (by omega)]
  simp only [line_key line k hk hlen, line_begin_value line k hk hlen, if_neg hv]
  rw [if_neg (by simpa using hck), uadd_eq _ _ (by omega), find_first_of_writer,
    drop_succ_value line c s hcs, value_span_length line c s hcs, after_span_eq line c s hcs,
    toInt_eq _ hvl]
  have hs : (line.drop (value_offset line + 1)).length = line.length - (value_offset line + 1) :=
    List.length_drop _ _
  rw [drop_succ_value line c s hcs] at hs
  have ht := takeWhile_length_add (fun x => !writer_stop x) s
  generalize hn : (s.takeWhile (fun x => !writer_stop x)).length = n at ht ⊢
  by_cases hterm : s.dropWhile (fun x => !writer_stop x) = []
  · rw [if_pos hterm, if_pos (Or.inl hterm)]
    have e : usub npos (value_offset line) = 4294967295 - value_offset line :=
      usub_eq _ _ (by unfold npos; omega) (by unfold npos; omega)
    rw [e, toInt_neg _ (by omega) (by omega)]
    have hc : ((v.length : Nat) : Int) ≥
        ((4294967295 - value_offset line : Nat) : Int) - 4294967296 := by omega
    rw [if_pos hc]
  · rw [if_neg hterm]
    have e : usub (value_offset line + 1 + n) (value_offset line) = 1 + n := by
      rw [usub_eq _ _ (by omega) (by omega)]; omega
    rw [e, toInt_eq _ (by omega)]
    by_cases hroom : 1 + n ≤ v.length
    · have hc : ((v.length : Nat) : Int) ≥ ((1 + n : Nat) : Int) := by omega
      rw [if_pos hc, if_pos (Or.inr hroom)]
    · have hc : ¬ ((v.length : Nat) : Int) ≥ ((1 + n : Nat) : Int) := by omega
      have hc2 : ¬ (s.dropWhile (fun x => !writer_stop x) = [] ∨ 1 + n ≤ v.length) := by
        simp [hterm, hroom]
      rw [if_neg hc, if_neg hc2]
      have ea : usub (pos + 1) line.length = pos + 1 - line.length :=
        usub_eq _ _ (by omega) (by omega)
      have eb : uadd (pos + 1 - line.length) (value_offset line) =
          pos + 1 - line.length + value_offset line := uadd_eq _ _ (by omega)
      have ec : usub (pos + 1 - line.length + value_offset line) 1 =
          pos + 1 - line.length + value_offset line - 1 := usub_eq _ _ (by omega) (by omega)
      have e2 : usub (uadd (usub (pos + 1) line.length) (value_offset line)) 1 =
          pos - line.length + value_offset line := by
        rw [ea, eb, ec]
        omega
      rw [e2, toInt_eq _ (by omega)]
      have hc3 : ¬ ((pos - line.length + value_offset line : Nat) : Int) < 0 := by omega
      rw [if_neg hc3]
      rfl

theorem take_takeWhile_length (p : Nat → Bool) (l : Bytes) :
    l.take (l.takeWhile p).length = l.takeWhile p := by
  have h := List.take_left (l.takeWhile p) (l.dropWhile p)
  rwa [List.takeWhile_append_dropWhile] at h

/-- What the reader returns on the first entry for `h` when the line has a
value: the key and the value up to the first reader terminator. -/
theorem value_line_entry (cs : Bytes → Nat) (h : Nat) (line k : Bytes)
    (next : Except Fault ConfigValue) (he : is_entry cs h line = true)
    (hk : key_of line = some k)
    (hv : value_tail line ≠ []) (hsmall : line.length < 2147483648) :
    value_line cs h line next = .ok ⟨h, true, k, read_value line⟩ := by
  obtain ⟨h1, h2, k2, hk2, hck⟩ := entry_cases cs h line he
  obtain rfl : k2 = k := Option.some.inj (hk2.symm.trans hk)
  obtain ⟨c, s, hcs⟩ := List.exists_cons_of_ne_nil hv
  have hlen : line.length < npos := by unfold npos; omega
  have hbv := value_offset_lt line hv
  unfold value_line
  rw [if_neg h1, if_neg (by omega)]
  simp only [line_key line k2 hk hlen, line_begin_value line k2 hk hlen, if_neg hv]
  rw [if_neg (by simpa using hck), uadd_eq _ _ (by omega), find_first_of_reader,
    drop_succ_value line c s hcs]
  have hs : (line.drop (value_offset line + 1)).length = line.length - (value_offset line + 1) :=
    List.length_drop _ _
  rw [drop_succ_value line c s hcs] at hs
  have ht := takeWhile_length_add (fun x => !reader_stop x) s
  have hrv : read_value line = c :: s.takeWhile (fun x => !reader_stop x) := by
    unfold read_value; rw [hcs]
  have hsub : ∀ n, substr line (value_offset line) n = some ((c :: s).take n) := by
    intro n
    unfold substr
    rw [if_neg (by omega), value_tail_drop, hcs]
  rw [hsub, hrv]
  by_cases hterm : s.dropWhile (fun x => !reader_stop x) = []
  · rw [if_pos hterm]
    have e : usub npos (value_offset line) = 4294967295 - value_offset line :=
      usub_eq _ _ (by unfold npos; omega) (by unfold npos; omega)
    have h3 := List.takeWhile_append_dropWhile (fun x => !reader_stop x) s
    rw [hterm, List.append_nil] at h3
    rw [e, h3, List.take_of_length_le]
    simp only [List.length_cons]
    omega
  · rw [if_neg hterm]
    have e : usub (value_offset line + 1 + (s.takeWhile (fun x => !reader_stop x)).length)
        (value_offset line) = (s.takeWhile (fun x => !reader_stop x)).length + 1 := by
      rw [usub_eq _ _ (by omega) (by omega)]; omega
    rw [e, List.take_succ_cons, take_takeWhile_length]

/-! ## The shape of a line -/

theorem takeWhile_ne_nil (p : Nat → Bool) (l : Bytes) (hl : l.dropWhile (fun c => !p c) ≠ []) :
    (l.dropWhile (fun c => !p c)).takeWhile p ≠ [] := by
  have h := List.head_dropWhile_not (fun c => !p c) l hl
  obtain ⟨c, t, hct⟩ := List.exists_cons_of_ne_nil hl
  simp only [hct, List.head_cons, Bool.not_eq_false'] at h
  rw [hct, List.takeWhile_cons_of_pos h]
  simp

/-- A line with a key and a value is leading spaces, the key, at least one
space, and the value tail. -/
theorem line_shape (line k : Bytes) (hk : key_of line = some k) (hv : value_tail line ≠ []) :
    ∃ a g, line = a ++ k ++ g ++ value_tail line ∧ (∀ x ∈ a, x = 32) ∧ (∀ x ∈ k, x ≠ 32) ∧
      k ≠ [] ∧ (∀ x ∈ g, x = 32) ∧ g ≠ [] := by
  obtain ⟨ht, rfl⟩ := key_of_some line k hk
  refine ⟨line.takeWhile (fun c => decide (c = 32)),
    ((line.dropWhile (fun c => decide (c = 32))).dropWhile (fun c => !decide (c = 32))).takeWhile
      (fun c => decide (c = 32)), ?_, ?_, ?_, ?_, ?_, ?_⟩
  · unfold value_tail
    rw [List.append_assoc, List.append_assoc, List.takeWhile_append_dropWhile,
      List.takeWhile_append_dropWhile, List.takeWhile_append_dropWhile]
  · intro x hx
    simpa using List.mem_takeWhile_imp hx
  · intro x hx
    simpa using List.mem_takeWhile_imp hx
  · have h := takeWhile_ne_nil (fun c => !decide (c = 32)) line (by simpa using ht)
    simpa using h
  · intro x hx
    simpa using List.mem_takeWhile_imp hx
  · have hu : (line.dropWhile (fun c => decide (c = 32))).dropWhile (fun c => !decide (c = 32))
        ≠ [] := by
      intro hu
      apply hv
      unfold value_tail
      rw [hu]; rfl
    have h := takeWhile_ne_nil (fun c => decide (c = 32))
      (line.dropWhile (fun c => decide (c = 32))) hu
    exact h

/-- Conversely, leading spaces, a non-empty run of non-spaces, at least one
space and a tail that does not start with a space parse to that key and that
value tail. -/
theorem shape_parse (a k g w : Bytes) (ha : ∀ x ∈ a, x = 32) (hk : ∀ x ∈ k, x ≠ 32)
    (hk0 : k ≠ []) (hg : ∀ x ∈ g, x = 32) (hg0 : g ≠ []) (hw : ∀ c s, w = c :: s → c ≠ 32) :
    key_of (a ++ k ++ g ++ w) = some k ∧ value_tail (a ++ k ++ g ++ w) = w := by
  obtain ⟨k0, kt, rfl⟩ := List.exists_cons_of_ne_nil hk0
  obtain ⟨g0, gt, rfl⟩ := List.exists_cons_of_ne_nil hg0
  have hk0' : k0 ≠ 32 := hk k0 (List.mem_cons_self _ _)
  have hg0' : g0 = 32 := hg g0 (List.mem_cons_self _ _)
  have e1 : (a ++ k0 :: kt ++ g0 :: gt ++ w).dropWhile (fun c => decide (c = 32)) =
      k0 :: kt ++ g0 :: gt ++ w := by
    rw [List.append_assoc, List.append_assoc,
      List.dropWhile_append_of_pos (fun x hx => by simpa using ha x hx)]
    have hkw : k0 :: kt ++ (g0 :: gt ++ w) = k0 :: (kt ++ (g0 :: gt ++ w)) := rfl
    rw [hkw, List.dropWhile_cons_of_neg (by simp [hk0'])]
    simp
  have e2 : (k0 :: kt ++ g0 :: gt ++ w).takeWhile (fun c => !decide (c = 32)) = k0 :: kt := by
    rw [List.append_assoc,
      List.takeWhile_append_of_pos (fun x hx => by simpa using hk x hx)]
    have hgw : g0 :: gt ++ w = g0 :: (gt ++ w) := rfl
    rw [hgw, List.takeWhile_cons_of_neg (by simp [hg0']), List.append_nil]
  have e3 : (k0 :: kt ++ g0 :: gt ++ w).dropWhile (fun c => !decide (c = 32)) =
      g0 :: gt ++ w := by
    rw [List.append_assoc,
      List.dropWhile_append_of_pos (fun x hx => by simpa using hk x hx)]
    have hgw : g0 :: gt ++ w = g0 :: (gt ++ w) := rfl
    rw [hgw, List.dropWhile_cons_of_neg (by simp [hg0'])]
  have e4 : (g0 :: gt ++ w).dropWhile (fun c => decide (c = 32)) = w := by
    rw [List.dropWhile_append_of_pos (fun x hx => by simpa using hg x hx)]
    cases w with
    | nil => rfl
    | cons c s =>
      exact List.dropWhile_cons_of_neg (by simpa using hw c s rfl)
  constructor
  · unfold key_of
    rw [e1]
    simp only [List.cons_append]
    have := e2
    simp only [List.cons_append] at this
    rw [this]
  · unfold value_tail
    rw [e1, e3, e4]

/-! ## Reader and writer on a file whose first entry is known -/

theorem first_entry_length (cs : Bytes → Nat) (h : Nat) (pre : List Bytes)
    (line post file : Bytes) (hf : first_entry cs h pre line post file) :
    file.length = (unlines pre).length + line.length + 1 + post.length := by
  rw [hf.1]
  simp only [List.length_append, List.length_cons]
  omega

theorem value_first_entry (cs : Bytes → Nat) (h : Nat) (pre : List Bytes)
    (line post file k : Bytes) (hf : first_entry cs h pre line post file)
    (hk : key_of line = some k) (hv : value_tail line ≠ [])
    (hsize : file.length < 2147483648) :
    value cs file h = .ok ⟨h, true, k, read_value line⟩ := by
  have hlen := first_entry_length cs h pre line post file hf
  obtain ⟨hfile, hpre, hnl, he⟩ := hf
  unfold value
  rw [hfile, List.append_assoc, value_loop_passed cs h pre hpre (by unfold npos; omega),
    value_loop_line cs h line hnl, List.nil_append,
    value_line_entry cs h line k _ he hk hv (by omega)]

theorem set_string_first_entry (cs : Bytes → Nat) (h : Nat) (pre : List Bytes)
    (line post file v : Bytes) (hf : first_entry cs h pre line post file)
    (hv : value_tail line ≠ []) (hsize : file.length < 2147483648)
    (hvl : v.length < 2147483648) :
    set_string cs file h v =
      if after_span line = [] ∨ (value_span line).length ≤ v.length then
        .ok ⟨file, ["ERROR: Not enough room for value\r\n"]⟩
      else
        .ok ⟨fputs_at file ((unlines pre).length + value_offset line)
          (pad v ((value_span line).length : Nat)), []⟩ := by
  have hlen := first_entry_length cs h pre line post file hf
  obtain ⟨hfile, hpre, hnl, he⟩ := hf
  unfold set_string
  have hrest : set_string_loop cs h v file file 0 [] =
      set_string_loop cs h v file (unlines pre ++ (line ++ 10 :: post)) 0 [] :=
    congrArg (fun r => set_string_loop cs h v file r 0 [])
      (hfile.trans (List.append_assoc _ _ _))
  rw [hrest, set_string_loop_passed cs h v file pre hpre (by unfold npos; omega),
    set_string_loop_line cs h v file line hnl, List.nil_append,
    set_line_entry cs h v file line _ _ he hv (by omega) (by omega) hvl]
  have e : 0 + (unlines pre).length + line.length - line.length + value_offset line =
      (unlines pre).length + value_offset line := by omega
  rw [e]

/-! ## The claims -/

/-- C1 (the code departs from the claim). On the file `foo 100 \n`, whose value
span runs to the end of the line, `set_string(hash("foo"), "250")` does not
rewrite the value: it prints `ERROR: Not enough room for value` and leaves the
file as it was. -/
theorem set_string_span_to_line_end_refused :
    set_string sample_checksum [102, 111, 111, 32, 49, 48, 48, 32, 10]
        (sample_checksum [102, 111, 111]) [50, 53, 48] =
      .ok ⟨[102, 111, 111, 32, 49, 48, 48, 32, 10], ["ERROR: Not enough room for value\r\n"]⟩ := by
  rfl

/-- C6 (the code departs from the claim). When both `/local/config` and
`/sd/config` open for reading, `has_config_file()` on a fresh `Config` returns
true but the active path it leaves, and `get_config_file()` returns, is the
later candidate `/sd/config`. -/
theorem has_config_file_both_open_picks_sd :
    has_config_file (fun _ => true) Config.init = (true, ⟨true, "/sd/config"⟩) ∧
      (get_config_file (fun _ => true) Config.init).1 = some "/sd/config" ∧
      (get_config_file (fun _ => true) (has_config_file (fun _ => true) Config.init).2).1
        = some "/sd/config" := by
  refine ⟨rfl, rfl, rfl⟩

/-- When every complete line is passed over, the writer reaches end-of-file
and reports that the key was not found. -/
theorem set_string_all_passed (cs : Bytes → Nat) (h : Nat) (ls : List Bytes)
    (last file v : Bytes) (hfile : file = unlines ls ++ last)
    (hls : ∀ l ∈ ls, 10 ∉ l ∧ passed cs h l = true) (hlast : 10 ∉ last)
    (hsize : file.length < 2147483648) :
    set_string cs file h v = .ok ⟨file, ["ERROR:\u00a0configuration key not found\r\n"]⟩ := by
  have hlen : file.length = (unlines ls).length + last.length := by
    rw [hfile, List.length_append]
  unfold set_string
  have hrest : set_string_loop cs h v file file 0 [] =
      set_string_loop cs h v file (unlines ls ++ last) 0 [] :=
    congrArg (fun r => set_string_loop cs h v file r 0 []) hfile
  rw [hrest, set_string_loop_passed cs h v file ls hls (by unfold npos; omega),
    set_string_loop_tail cs h v file last hlast]

/-- C9 (the code departs from the claim). On the file `   \n`, which holds no
entry at all, `set_string(hash("bar"), "x")` throws from `substr` instead of
reporting a missing key; and on `# c\n\nfoo 1 #c\n`, where the scan does reach
the end of the file, the text printed is `ERROR:`, U+00A0,
`configuration key not found`, not the message with a plain space. The file
is unchanged in the second run. -/
theorem set_string_missing_key_divergence :
    set_string sample_checksum [32, 32, 32, 10] (sample_checksum [98, 97, 114]) [120] =
        .error .out_of_range ∧
      set_string sample_checksum [35, 32, 99, 10, 10, 102, 111, 111, 32, 49, 32, 35, 99, 10]
        (sample_checksum [98, 97, 114]) [120] =
        .ok ⟨[35, 32, 99, 10, 10, 102, 111, 111, 32, 49, 32, 35, 99, 10],
          ["ERROR:\u00a0configuration key not found\r\n"]⟩ ∧
      "ERROR:\u00a0configuration key not found\r\n" ≠
        "ERROR: configuration key not found\r\n" :=
  ⟨rfl, rfl, by decide⟩

/-- C10 (the code departs from the claim). A last line that is not followed
by `'\n'` is never handed to the line body: even when it is an entry for `h`
with a value and every line before it is passed over, `Config::value(h)`
returns found = false and `set_string(h, v)` prints its key-not-found message
(`ERROR:`, U+00A0, `configuration key not found`). -/
theorem unterminated_last_line_not_scanned (cs : Bytes → Nat) (h : Nat) (ls : List Bytes)
    (last file v : Bytes) (hfile : file = unlines ls ++ last)
    (hls : ∀ l ∈ ls, 10 ∉ l ∧ passed cs h l = true) (hlast : 10 ∉ last)
    (hentry : is_entry cs h last = true ∧ value_tail last ≠ [])
    (hsize : file.length < 2147483648) :
    value cs file h = .ok ⟨h, false, [], []⟩ ∧
      set_string cs file h v = .ok ⟨file, ["ERROR:\u00a0configuration key not found\r\n"]⟩ := by
  have hlen : file.length = (unlines ls).length + last.length := by
    rw [hfile, List.length_append]
  refine ⟨?_, set_string_all_passed cs h ls last file v hfile hls hlast hsize⟩
  unfold value
  rw [hfile, value_loop_passed cs h ls hls (by unfold npos; omega),
    value_loop_tail cs h last hlast]

/-- C10 on the file `# c\nfoo 1.19 #x` (no final `'\n'`) with hash("foo"). -/
theorem unterminated_last_line_not_scanned_witness :
    value sample_checksum [35, 32, 99, 10, 102, 111, 111, 32, 49, 46, 49, 57, 32, 35, 120]
        (sample_checksum [102, 111, 111]) =
      .ok ⟨sample_checksum [102, 111, 111], false, [], []⟩ ∧
    set_string sample_checksum [35, 32, 99, 10, 102, 111, 111, 32, 49, 46, 49, 57, 32, 35, 120]
        (sample_checksum [102, 111, 111]) [50] =
      .ok ⟨[35, 32, 99, 10, 102, 111, 111, 32, 49, 46, 49, 57, 32, 35, 120],
        ["ERROR:\u00a0configuration key not found\r\n"]⟩ :=
  unterminated_last_line_not_scanned sample_checksum (sample_checksum [102, 111, 111])
    [[35, 32, 99]] [102, 111, 111, 32, 49, 46, 49, 57, 32, 35, 120]
    [35, 32, 99, 10, 102, 111, 111, 32, 49, 46, 49, 57, 32, 35, 120] [50]
    (by decide) (by decide) (by decide) (by decide) (by decide)

/-! ## Size of the file after a write -/

theorem c_str_length_le (w : Bytes) : (c_str w).length ≤ w.length := by
  unfold c_str
  have h := takeWhile_length_add (fun c => c != 0) w
  omega

theorem fputs_at_length (file w : Bytes) (start : Nat)
    (h : start + (c_str w).length ≤ file.length) :
    (fputs_at file start w).length = file.length := by
  unfold fputs_at
  simp only [List.length_append, List.length_take, List.length_replicate, List.length_drop]
  omega

theorem pad_length (v : Bytes) (fs : Int) (hv : v.length < 2147483648)
    (h : ¬ toInt v.length ≥ fs) : ((pad v fs).length : Int) = fs := by
  rw [toInt_eq _ hv] at h
  unfold pad
  rw [toInt_eq _ hv]
  simp only [List.length_append, List.length_replicate]
  omega

theorem toInt_spec (n : Nat) :
    (toInt n = ((n % 4294967296 : Nat) : Int) ∧ n % 4294967296 < 2147483648) ∨
      (toInt n = ((n % 4294967296 : Nat) : Int) - 4294967296 ∧ 2147483648 ≤ n % 4294967296) := by
  unfold toInt SIZE_MOD
  by_cases h : n % 4294967296 < 2147483648
  · left; rw [if_pos h]; exact ⟨rfl, h⟩
  · right; rw [if_neg h]; exact ⟨rfl, by omega⟩

/-- C4 (the code departs from the claim). On the file `ab#c\n`, whose only line
has a key but no value, `set_string(hash("ab#c"), "z")` prints no error and the
file grows from 5 to 8 bytes: `start` is -1, the seek fails, its result is not
looked at, and `z  ` is written at the current position, the end of the file. -/
theorem set_string_grows_file :
    set_string sample_checksum [97, 98, 35, 99, 10] (sample_checksum [97, 98, 35, 99]) [122] =
        .ok ⟨[97, 98, 35, 99, 10, 122, 32, 32], []⟩ ∧
      ([97, 98, 35, 99, 10, 122, 32, 32] : Bytes).length = 8 ∧
      ([97, 98, 35, 99, 10] : Bytes).length = 5 :=
  ⟨rfl, rfl, rfl⟩

/-- C3 (the code departs from the claim). On the file `x 1\nab#c\n`, whose
second line has a key but no value, `set_string(hash("ab#c"), "z")` prints no
error and yields `x 1z  #c\n`: the `'\n'` that ended the first line and the
first two bytes of the key have been overwritten. -/
theorem set_string_overwrites_key_and_newline :
    set_string sample_checksum [120, 32, 49, 10, 97, 98, 35, 99, 10]
        (sample_checksum [97, 98, 35, 99]) [122] =
      .ok ⟨[120, 32, 49, 122, 32, 32, 35, 99, 10], []⟩ := by
  rfl

theorem takeWhile_until_stop (p : Nat → Bool) (val rest : Bytes)
    (hval : ∀ x ∈ val, p x = true)
    (hrest : rest = [] ∨ ∃ d r, rest = d :: r ∧ p d = false) :
    (val ++ rest).takeWhile p = val := by
  rw [List.takeWhile_append_of_pos hval]
  rcases hrest with rfl | ⟨d, r, rfl, hd⟩
  · simp
  · rw [List.takeWhile_cons_of_neg (by simp [hd]), List.append_nil]

theorem value_tail_split (line : Bytes) : value_tail line = value_span line ++ after_span line := by
  unfold value_span after_span
  cases value_tail line with
  | nil => rfl
  | cons c s =>
    simp only [List.cons_append]
    rw [List.takeWhile_append_dropWhile]

theorem c_str_no_nul (w : Bytes) (hw : ∀ x ∈ w, x ≠ 0) : c_str w = w := by
  unfold c_str
  rw [List.takeWhile_eq_self_iff]
  intro x hx
  simpa using hw x hx

theorem pad_eq (v : Bytes) (n : Nat) (hv : v.length < 2147483648) :
    pad v (n : Int) = v ++ List.replicate (n - v.length) 32 := by
  unfold pad
  rw [toInt_eq _ hv]
  congr 2
  omega

theorem fputs_at_replace (P X S w : Bytes) (hw : (c_str w).length = X.length) :
    fputs_at (P ++ X ++ S) P.length w = P ++ c_str w ++ S := by
  unfold fputs_at
  have e1 : (P ++ X ++ S).take P.length = P := by
    rw [List.append_assoc, List.take_left]
  have e2 : P.length - (P ++ X ++ S).length = 0 := by
    simp only [List.length_append]; omega
  have e3 : (P ++ X ++ S).drop (P.length + (c_str w).length) = S := by
    rw [hw, ← List.length_append, List.drop_left]
  rw [e1, e2, e3]
  simp

/-- The file a successful `set_string` leaves: the value span of the first
entry is replaced by the new value padded with spaces. -/
theorem set_string_written (cs : Bytes → Nat) (h : Nat) (pre : List Bytes)
    (line post file v : Bytes) (e : Effect) (hf : first_entry cs h pre line post file)
    (hv : value_tail line ≠ []) (hsize : file.length < 2147483648)
    (hvl : v.length < 2147483648) (hnul : ∀ x ∈ v, x ≠ 0)
    (hres : set_string cs file h v = .ok e) (hquiet : e.serial = []) :
    after_span line ≠ [] ∧ v.length < (value_span line).length ∧
      e.file = unlines pre ++ (line.take (value_offset line) ++
        (v ++ List.replicate ((value_span line).length - v.length) 32) ++ after_span line)
        ++ 10 :: post := by
  rw [set_string_first_entry cs h pre line post file v hf hv hsize hvl] at hres
  split_ifs at hres with hc
  · cases hres
    exact absurd hquiet (by simp)
  · cases hres
    have hc1 : after_span line ≠ [] := fun x => hc (Or.inl x)
    have hc2 : v.length < (value_span line).length := by
      by_contra x; exact hc (Or.inr (by omega))
    refine ⟨hc1, hc2, ?_⟩
    have hline : line = line.take (value_offset line) ++ value_span line ++ after_span line := by
      rw [List.append_assoc, ← value_tail_split, ← value_tail_drop, List.take_append_drop]
    have hoff : (line.take (value_offset line)).length = value_offset line := by
      rw [List.length_take]
      have := value_offset_lt line hv
      omega
    have hfile : file = (unlines pre ++ line.take (value_offset line)) ++ value_span line ++
        (after_span line ++ 10 :: post) := by
      conv_lhs => rw [hf.1, hline]
      simp only [List.append_assoc]
    have hstart : (unlines pre).length + value_offset line =
        (unlines pre ++ line.take (value_offset line)).length := by
      rw [List.length_append, hoff]
    have hpadnul : ∀ x ∈ v ++ List.replicate ((value_span line).length - v.length) 32, x ≠ 0 := by
      intro x hx
      rcases List.mem_append.mp hx with hx | hx
      · exact hnul x hx
      · rw [(List.mem_replicate.mp hx).2]; decide
    have hcstr := c_str_no_nul _ hpadnul
    rw [pad_eq v _ hvl, hstart]
    conv_lhs => rw [hfile]
    rw [fputs_at_replace _ _ _ _ (by
      rw [hcstr, List.length_append, List.length_replicate]; omega), hcstr]
    simp only [List.append_assoc]

/-- C2 (the claim as stated fails). On the file `foo 1 #c\n` the empty value,
which contains no space, `'#'`, `'\r'` or `'\n'`, is written without error, yet
the reader then returns the value `#c`. -/
theorem read_after_write_fails_for_empty_value :
    set_string sample_checksum [102, 111, 111, 32, 49, 32, 35, 99, 10]
        (sample_checksum [102, 111, 111]) [] =
      .ok ⟨[102, 111, 111, 32, 32, 32, 35, 99, 10], []⟩ ∧
    value sample_checksum [102, 111, 111, 32, 32, 32, 35, 99, 10]
        (sample_checksum [102, 111, 111]) =
      .ok ⟨sample_checksum [102, 111, 111], true, [102, 111, 111], [35, 99]⟩ ∧
    ([35, 99] : Bytes) ≠ [] :=
  ⟨rfl, rfl, by decide⟩

/-- C2 (amended). Read-after-write: when the first entry for `h` has a value
and `set_string(h, v)` succeeds on the file (writes, prints no error) for a
non-empty `v` without NUL, space, `'#'`, `'\r'` or `'\n'`, then `Config::value(h)`
on the resulting file returns found = true, the key of that entry and the
value `v`. -/
theorem read_after_write (cs : Bytes → Nat) (h : Nat) (pre : List Bytes)
    (line post file v k : Bytes) (e : Effect) (hf : first_entry cs h pre line post file)
    (hk : key_of line = some k) (hv : value_tail line ≠ [])
    (hsize : file.length < 2147483648) (hvl : v.length < 2147483648)
    (hv0 : v ≠ []) (hvc : ∀ x ∈ v, x ≠ 0 ∧ x ≠ 32 ∧ x ≠ 35 ∧ x ≠ 13 ∧ x ≠ 10)
    (hres : set_string cs file h v = .ok e) (hquiet : e.serial = []) :
    value cs e.file h = .ok ⟨h, true, k, v⟩ := by
  obtain ⟨hafter, hroom, hefile⟩ := set_string_written cs h pre line post file v e hf hv hsize
    hvl (fun x hx => (hvc x hx).1) hres hquiet
  obtain ⟨a, g, hline, ha, hkk, hk0, hg, hg0⟩ := line_shape line k hk hv
  obtain ⟨hfile, hpre, hnl, hent⟩ := hf
  obtain ⟨hhd, hlen3, -⟩ := entry_cases cs h line hent
  have hoff : line.take (value_offset line) = a ++ k ++ g := by
    have h1 : value_offset line = (a ++ k ++ g).length := by
      have hl := congrArg List.length hline
      simp only [List.length_append] at hl ⊢
      unfold value_offset
      omega
    rw [h1]
    conv_lhs => rw [hline]
    rw [List.take_left]
  obtain ⟨v0, vt, rfl⟩ := List.exists_cons_of_ne_nil hv0
  generalize hm : (value_span line).length - (v0 :: vt).length = m at hefile
  have hm1 : 1 ≤ m := by omega
  have hsh := shape_parse a k g (v0 :: vt ++ List.replicate m 32 ++ after_span line) ha hkk hk0
    hg hg0 (fun d s hd => by
      have : v0 = d := by simpa using congrArg List.head? hd
      rw [← this]; exact (hvc v0 (List.mem_cons_self _ _)).2.1)
  have hline2 : line.take (value_offset line) ++ (v0 :: vt ++ List.replicate m 32) ++
      after_span line = a ++ k ++ g ++ (v0 :: vt ++ List.replicate m 32 ++ after_span line) := by
    rw [hoff]; simp only [List.append_assoc]
  rw [hline2] at hefile
  generalize hl2 : a ++ k ++ g ++ (v0 :: vt ++ List.replicate m 32 ++ after_span line) = line2
    at hefile hsh
  obtain ⟨hko, hvt⟩ := hsh
  have hsub : ∀ x ∈ after_span line, x ∈ line := by
    intro x hx
    rw [hline, value_tail_split]
    simp [hx]
  have hnl2 : 10 ∉ line2 := by
    rw [← hl2]
    have hnla : 10 ∉ a ++ k ++ g := by
      intro hx
      apply hnl
      rw [hline]
      exact List.mem_append_left _ hx
    simp only [List.mem_append, List.mem_replicate, not_or]
    simp only [List.mem_append, not_or] at hnla
    refine ⟨hnla, ⟨fun hx => (hvc 10 hx).2.2.2.2 rfl, by simp⟩, fun hx => hnl (hsub 10 hx)⟩
  have hhd2 : line2.headD 0 = line.headD 0 := by
    rw [← hl2]
    conv_rhs => rw [hline]
    obtain ⟨k0, kt, rfl⟩ := List.exists_cons_of_ne_nil hk0
    cases a with
    | nil => rfl
    | cons a0 at' => rfl
  have hlen2 : line2.length = line.length := by
    rw [← hl2]
    conv_rhs => rw [hline, value_tail_split]
    simp only [List.length_append, List.length_replicate, List.length_cons] at hm hroom ⊢
    omega
  have hck : cs k = h := by
    obtain ⟨-, -, k2, hk2, hck⟩ := entry_cases cs h line hent
    rw [hk] at hk2
    cases hk2
    exact hck
  have hent2 : is_entry cs h line2 = true := by
    have d1 : decide (line.headD 0 = 35) = false := decide_eq_false hhd
    have d2 : decide (3 ≤ line.length) = true := decide_eq_true hlen3
    have d3 : decide (cs k = h) = true := decide_eq_true hck
    unfold is_entry
    rw [hko, hhd2, hlen2]
    simp only [d1, d2, d3]
    rfl
  have hrv : read_value line2 = v0 :: vt := by
    unfold read_value
    rw [hvt]
    simp only [List.cons_append, List.append_assoc]
    congr 1
    apply takeWhile_until_stop
    · intro x hx
      have := hvc x (List.mem_cons_of_mem _ hx)
      simp [reader_stop, this]
    · right
      obtain ⟨m', rfl⟩ : ∃ m', m = m' + 1 := ⟨m - 1, by omega⟩
      exact ⟨32, List.replicate m' 32 ++ after_span line, by simp [List.replicate_succ],
        by simp [reader_stop]⟩
  have hv2 : value_tail line2 ≠ [] := by rw [hvt]; simp
  have hflen : e.file.length = file.length := by
    rw [hefile, hfile]
    simp only [List.length_append, List.length_cons, hlen2]
  rw [← hrv]
  exact value_first_entry cs h pre line2 post e.file k ⟨hefile, hpre, hnl2, hent2⟩ hko hv2
    (by omega)

/-- C2 (amended) on the file `foo 100 #c\n` with the value `25`: the file
becomes `foo 25  #c\n` and the reader returns `25`. -/
theorem read_after_write_witness :
    value sample_checksum [102, 111, 111, 32, 50, 53, 32, 32, 35, 99, 10]
        (sample_checksum [102, 111, 111]) =
      .ok ⟨sample_checksum [102, 111, 111], true, [102, 111, 111], [50, 53]⟩ :=
  read_after_write sample_checksum (sample_checksum [102, 111, 111]) []
    [102, 111, 111, 32, 49, 48, 48, 32, 35, 99] []
    [102, 111, 111, 32, 49, 48, 48, 32, 35, 99, 10] [50, 53] [102, 111, 111]
    ⟨[102, 111, 111, 32, 50, 53, 32, 32, 35, 99, 10], []⟩
    (by decide) (by decide) (by decide) (by decide) (by decide) (by decide) (by decide)
    rfl rfl


/-! ## Lines of spaces -/

theorem key_of_blank (l : Bytes) (hb : ∀ x ∈ l, x = 32) : key_of l = none := by
  have hd : l.dropWhile (fun c => decide (c = 32)) = [] := by
    rw [List.dropWhile_eq_nil_iff]
    intro x hx
    simpa using hb x hx
  unfold key_of
  rw [hd]

theorem blank_headD (l : Bytes) (hb : ∀ x ∈ l, x = 32) : l.headD 0 ≠ 35 := by
  cases l with
  | nil => decide
  | cons x t =>
    have := hb x (List.mem_cons_self _ _)
    simp only [List.headD_cons]
    omega

theorem value_line_blank (cs : Bytes → Nat) (h : Nat) (l : Bytes)
    (next : Except Fault ConfigValue) (hb : ∀ x ∈ l, x = 32) (h3 : 3 ≤ l.length)
    (hlen : l.length < npos) : value_line cs h l next = .error .out_of_range := by
  unfold value_line
  rw [if_neg (blank_headD l hb), if_neg (by omega)]
  simp only [line_key_none l (key_of_blank l hb) hlen]

theorem set_line_blank (cs : Bytes → Nat) (h : Nat) (v file l : Bytes) (pos : Nat)
    (next : Except Fault Effect) (hb : ∀ x ∈ l, x = 32) (h3 : 3 ≤ l.length)
    (hlen : l.length < npos) : set_line cs h v file l pos next = .error .out_of_range := by
  unfold set_line
  rw [if_neg (blank_headD l hb), if_neg (by omega)]
  simp only [line_key_none l (key_of_blank l hb) hlen]

/-- C11 (the code departs from the claim). A line of three or more spaces is
not skipped: when the scan reaches it, `substr` is called with `npos` and
throws, in `Config::value` and in `Config::set_string` alike, whatever the
file holds after it. -/
theorem blank_line_not_skipped (cs : Bytes → Nat) (h : Nat) (pre : List Bytes)
    (blank post file v : Bytes) (hfile : file = unlines pre ++ blank ++ 10 :: post)
    (hpre : ∀ l ∈ pre, 10 ∉ l ∧ passed cs h l = true)
    (hblank : ∀ x ∈ blank, x = 32) (h3 : 3 ≤ blank.length)
    (hsize : file.length < 2147483648) :
    value cs file h = .error .out_of_range ∧
      set_string cs file h v = .error .out_of_range := by
  have hlen : file.length = (unlines pre).length + blank.length + 1 + post.length := by
    rw [hfile]
    simp only [List.length_append, List.length_cons]
    omega
  have hnl : 10 ∉ blank := fun hx => absurd (hblank 10 hx) (by decide)
  constructor
  · unfold value
    rw [hfile, List.append_assoc, value_loop_passed cs h pre hpre (by unfold npos; omega),
      value_loop_line cs h blank hnl, List.nil_append,
      value_line_blank cs h blank _ hblank h3 (by unfold npos; omega)]
  · unfold set_string
    have hrest : set_string_loop cs h v file file 0 [] =
        set_string_loop cs h v file (unlines pre ++ (blank ++ 10 :: post)) 0 [] :=
      congrArg (fun r => set_string_loop cs h v file r 0 [])
        (hfile.trans (List.append_assoc _ _ _))
    rw [hrest, set_string_loop_passed cs h v file pre hpre (by unfold npos; omega),
      set_string_loop_line cs h v file blank hnl, List.nil_append,
      set_line_blank cs h v file blank _ _ hblank h3 (by unfold npos; omega)]

/-- C11 on the file `   \nfoo 1 \n`: the reader and the writer throw, while on
the file without the blank line, `foo 1 \n`, the reader finds `foo` = `1`. -/
theorem blank_line_not_skipped_witness :
    (value sample_checksum [32, 32, 32, 10, 102, 111, 111, 32, 49, 32, 10]
        (sample_checksum [102, 111, 111]) = .error .out_of_range ∧
      set_string sample_checksum [32, 32, 32, 10, 102, 111, 111, 32, 49, 32, 10]
        (sample_checksum [102, 111, 111]) [50] = .error .out_of_range) ∧
    value sample_checksum [102, 111, 111, 32, 49, 32, 10] (sample_checksum [102, 111, 111]) =
      .ok ⟨sample_checksum [102, 111, 111], true, [102, 111, 111], [49]⟩ :=
  ⟨blank_line_not_skipped sample_checksum (sample_checksum [102, 111, 111]) []
    [32, 32, 32] [102, 111, 111, 32, 49, 32, 10]
    [32, 32, 32, 10, 102, 111, 111, 32, 49, 32, 10] [50]
    (by decide) (by decide) (by decide) (by decide) (by decide), rfl⟩

/-- C12 (the code departs from the claim). On the file `#c\nab#c\n`
`set_string(hash("ab#c"), "z")` prints no error and yields `#cz  #c\n`: the
`'\n'` that ended the comment line `#c` is overwritten, so the comment is no
longer a line of its own. -/
theorem set_string_merges_comment_line :
    set_string sample_checksum [35, 99, 10, 97, 98, 35, 99, 10]
        (sample_checksum [97, 98, 35, 99]) [122] =
      .ok ⟨[35, 99, 122, 32, 32, 35, 99, 10], []⟩ := by
  rfl

/-- C13 (the code departs from the claim). When neither candidate path opens,
`set_string` prints `ERROR: no config file found` but does not return:
`get_config_file()` ends without a `return` and the writer goes on to `fopen`
and `fgetc` with the indeterminate path. -/
theorem set_string_without_config_file (cs : Bytes → Nat) (h : Nat) (v : Bytes) :
    (Config.set_string cs (fun _ => none) Config.init h v).stdout =
        ["ERROR: no config file found\r\n"] ∧
      (Config.set_string cs (fun _ => none) Config.init h v).result = .error Stop.no_path ∧
      (Config.set_string cs (fun _ => none) Config.init h v).config = Config.init :=
  ⟨rfl, rfl, rfl⟩

/-- C17. The active path is cached: once `config_file_found` is true,
`has_config_file()` returns true and `get_config_file()` the cached path,
whatever paths the filesystem would open; no candidate is probed, the object is
unchanged, and `config_file_found` stays true. -/
theorem config_file_cached (opens : String → Bool) (c : Config)
    (hfound : c.config_file_found = true) :
    has_config_file opens c = (true, c) ∧
      get_config_file opens c = (some c.config_file, [], c) ∧
      has_config_file_probes c = [] ∧ get_config_file_probes c = [] ∧
      (has_config_file opens c).2.config_file_found = true ∧
      (get_config_file opens c).2.2.config_file_found = true := by
  unfold has_config_file get_config_file has_config_file_probes get_config_file_probes
  simp [hfound]

/-- C17 after a first successful `has_config_file()` (only `/sd/config`
opens), on a filesystem where nothing opens any more. -/
theorem config_file_cached_witness :
    (has_config_file (fun p => p == "/sd/config") Config.init).2 = ⟨true, "/sd/config"⟩ ∧
      has_config_file (fun _ => false) ⟨true, "/sd/config"⟩ = (true, ⟨true, "/sd/config"⟩) ∧
      get_config_file (fun _ => false) ⟨true, "/sd/config"⟩ =
        (some "/sd/config", [], ⟨true, "/sd/config"⟩) :=
  ⟨by decide, (config_file_cached (fun _ => false) ⟨true, "/sd/config"⟩ rfl).1,
    (config_file_cached (fun _ => false) ⟨true, "/sd/config"⟩ rfl).2.1⟩

/-! ## Console commands -/

theorem find_first_of_verb_end (s : Bytes) :
    find_first_of s [32, 13, 10] 0 =
      if s.dropWhile (fun c => !(decide (c = 32) || (decide (c = 13) || decide (c = 10)))) = []
      then npos
      else (s.takeWhile
        (fun c => !(decide (c = 32) || (decide (c = 13) || decide (c = 10))))).length := by
  unfold find_first_of
  rw [findAt_eq]
  simp

/-- C15. Reload broadcast: a console line whose first token is `config-load`
(the line ends after it, or goes on with a space, `'\r'` or `'\n'`) publishes
`ON_CONFIG_RELOAD` exactly once, prints nothing and leaves the config file as
it is; the three verb hashes are distinct `case` labels and the one for
`config-load` is the hash of that verb. -/
theorem config_load_broadcast (cs : Bytes → Nat) (verbs : Verbs)
    (get_arguments : Bytes → Bytes) (shift_parameter : Bytes → Bytes × Bytes)
    (file rest : Bytes)
    (hrest : rest = [] ∨ ∃ d r, rest = d :: r ∧ (d = 32 ∨ d = 13 ∨ d = 10))
    (hload : verbs.config_load_checksum = cs config_load_verb)
    (hget : verbs.config_get_checksum ≠ cs config_load_verb)
    (hset : verbs.config_set_checksum ≠ cs config_load_verb) :
    on_console_line_received cs verbs get_arguments shift_parameter file
        (config_load_verb ++ rest) = .ok ⟨[Event.ON_CONFIG_RELOAD], [], file⟩ := by
  have hverb : ∀ x ∈ config_load_verb,
      (!(decide (x = 32) || (decide (x = 13) || decide (x = 10)))) = true := by decide
  have htake : (config_load_verb ++ rest).takeWhile
      (fun c => !(decide (c = 32) || (decide (c = 13) || decide (c = 10)))) =
      config_load_verb := by
    apply takeWhile_until_stop _ _ _ hverb
    rcases hrest with rfl | ⟨d, r, rfl, hd⟩
    · left; rfl
    · right
      refine ⟨d, r, rfl, ?_⟩
      rcases hd with rfl | rfl | rfl <;> decide
  have hsub : substr (config_load_verb ++ rest) 0
      (find_first_of (config_load_verb ++ rest) [32, 13, 10] 0) = some config_load_verb := by
    unfold substr
    rw [if_neg (by omega), List.drop_zero, find_first_of_verb_end, htake]
    congr 1
    split
    · rename_i hd
      have h3 := List.takeWhile_append_dropWhile
        (fun c => !(decide (c = 32) || (decide (c = 13) || decide (c = 10))))
        (config_load_verb ++ rest)
      rw [hd, htake, List.append_nil] at h3
      rw [← h3]
      exact List.take_of_length_le (by decide)
    · exact List.take_left _ _
  unfold on_console_line_received
  simp only [hsub]
  rw [if_neg (fun hx => hget hx.symm), if_neg (fun hx => hset hx.symm), if_pos hload.symm]
  rfl

/-- C15 on the line `config-load\n`, with the verb hashes taken from the sample
checksum. -/
theorem config_load_broadcast_witness :
    on_console_line_received sample_checksum
        ⟨sample_checksum [99, 111, 110, 102, 105, 103, 45, 103, 101, 116],
          sample_checksum [99, 111, 110, 102, 105, 103, 45, 115, 101, 116],
          sample_checksum config_load_verb⟩
        (fun s => s.drop 12) (fun s => (s, []))
        [102, 111, 111, 32, 49, 32, 10]
        (config_load_verb ++ [10]) =
      .ok ⟨[Event.ON_CONFIG_RELOAD], [], [102, 111, 111, 32, 49, 32, 10]⟩ :=
  config_load_broadcast sample_checksum _ _ _ _ [10] (Or.inr ⟨10, [], rfl, by decide⟩)
    rfl (by decide) (by decide)

/-! ## Where the scan stops -/

theorem split_at_newline (l : Bytes) :
    10 ∉ l ∨ ∃ l1 l2, l = l1 ++ 10 :: l2 ∧ 10 ∉ l1 := by
  induction l with
  | nil => left; simp
  | cons c l ih =>
    by_cases hc : c = 10
    · right; exact ⟨[], l, by simp [hc], by simp⟩
    · rcases ih with h | ⟨l1, l2, rfl, h1⟩
      · left
        intro hx
        rcases List.mem_cons.mp hx with hx | hx
        · exact hc hx.symm
        · exact h hx
      · right
        refine ⟨c :: l1, l2, by simp, ?_⟩
        intro hx
        rcases List.mem_cons.mp hx with hx | hx
        · exact hc hx.symm
        · exact h1 hx

/-- Either every complete line is passed over by the scan for `h`, or there
is a first complete line that is not. -/
theorem scan_cases (cs : Bytes → Nat) (h : Nat) (n : Nat) :
    ∀ rest : Bytes, rest.length ≤ n →
      (∃ pre last, rest = unlines pre ++ last ∧
          (∀ l ∈ pre, 10 ∉ l ∧ passed cs h l = true) ∧ 10 ∉ last) ∨
        (∃ pre line post, rest = unlines pre ++ line ++ 10 :: post ∧
          (∀ l ∈ pre, 10 ∉ l ∧ passed cs h l = true) ∧ 10 ∉ line ∧
          passed cs h line = false) := by
  induction n with
  | zero =>
    intro rest hn
    have : rest = [] := List.length_eq_zero.mp (by omega)
    left
    exact ⟨[], [], by simp [this, unlines], by simp, by simp⟩
  | succ n ih =>
    intro rest hn
    rcases split_at_newline rest with h0 | ⟨l, rest2, rfl, hl⟩
    · left
      exact ⟨[], rest, by simp [unlines], by simp, h0⟩
    · have hlen : rest2.length ≤ n := by
        simp only [List.length_append, List.length_cons] at hn
        omega
      by_cases hp : passed cs h l = true
      · rcases ih rest2 hlen with ⟨pre, last, rfl, hpre, hlast⟩ | ⟨pre, line, post, rfl, hpre, hline, hnp⟩
        · left
          refine ⟨l :: pre, last, by simp [unlines], ?_, hlast⟩
          intro x hx
          rcases List.mem_cons.mp hx with rfl | hx
          · exact ⟨hl, hp⟩
          · exact hpre x hx
        · right
          refine ⟨l :: pre, line, post, by simp [unlines], ?_, hline, hnp⟩
          intro x hx
          rcases List.mem_cons.mp hx with rfl | hx
          · exact ⟨hl, hp⟩
          · exact hpre x hx
      · right
        exact ⟨[], l, rest2, by simp [unlines], by simp, hl, by simpa using hp⟩

theorem not_passed_cases (cs : Bytes → Nat) (h : Nat) (l : Bytes)
    (hp : passed cs h l = false) :
    l.headD 0 ≠ 35 ∧ 3 ≤ l.length ∧ (key_of l = none ∨ is_entry cs h l = true) := by
  unfold passed at hp
  simp only [Bool.or_eq_false_iff, decide_eq_false_iff_not] at hp
  obtain ⟨⟨h1, h2⟩, h3⟩ := hp
  refine ⟨h1, by omega, ?_⟩
  cases hk : key_of l with
  | none => left; rfl
  | some k =>
    right
    rw [hk] at h3
    have d1 : decide (l.headD 0 = 35) = false := decide_eq_false h1
    have d2 : decide (3 ≤ l.length) = true := decide_eq_true (by omega)
    have d3 : decide (cs k = h) = true := by simpa using h3
    unfold is_entry
    rw [hk]
    simp only [d1, d2, d3]
    rfl

theorem value_line_no_key (cs : Bytes → Nat) (h : Nat) (l : Bytes)
    (next : Except Fault ConfigValue) (h1 : l.headD 0 ≠ 35) (h3 : 3 ≤ l.length)
    (hk : key_of l = none) (hlen : l.length < npos) :
    value_line cs h l next = .error .out_of_range := by
  unfold value_line
  rw [if_neg h1, if_neg (by omega)]
  simp only [line_key_none l hk hlen]

/-- The reader throws on an entry for `h` that has no value. -/
theorem value_line_entry_no_value (cs : Bytes → Nat) (h : Nat) (line : Bytes)
    (next : Except Fault ConfigValue) (he : is_entry cs h line = true)
    (hv : value_tail line = []) (hlen : line.length < npos) :
    value_line cs h line next = .error .out_of_range := by
  obtain ⟨h1, h2, k, hk, hck⟩ := entry_cases cs h line he
  unfold value_line
  rw [if_neg h1, if_neg (by omega)]
  simp only [line_key line k hk hlen, line_begin_value line k hk hlen, if_pos hv]
  rw [if_neg (by simpa using hck)]
  have : ∀ n, substr line npos n = none := by
    intro n
    unfold substr
    rw [if_pos hlen]
  simp only [this]

/-- Every completed lookup either met only passed lines and reports "not
found", or stopped at the first entry for `h`, which has a value, and reports
its key and value. -/
theorem value_cases (cs : Bytes → Nat) (file : Bytes) (h : Nat) (r : ConfigValue)
    (hsize : file.length < 2147483648) (hr : value cs file h = .ok r) :
    (r = ⟨h, false, [], []⟩ ∧ ∃ pre last, file = unlines pre ++ last ∧
        (∀ l ∈ pre, 10 ∉ l ∧ passed cs h l = true) ∧ 10 ∉ last) ∨
      (∃ pre line post k, first_entry cs h pre line post file ∧ key_of line = some k ∧
        value_tail line ≠ [] ∧ r = ⟨h, true, k, read_value line⟩) := by
  rcases scan_cases cs h file.length file (Nat.le_refl _) with
    ⟨pre, last, hfile, hpre, hlast⟩ | ⟨pre, line, post, hfile, hpre, hline, hnp⟩
  · left
    have hlen : file.length = (unlines pre).length + last.length := by
      rw [hfile, List.length_append]
    refine ⟨?_, pre, last, hfile, hpre, hlast⟩
    unfold value at hr
    rw [hfile, value_loop_passed cs h pre hpre (by unfold npos; omega),
      value_loop_tail cs h last hlast] at hr
    exact (Except.ok.inj hr).symm
  · have hlen : file.length = (unlines pre).length + line.length + 1 + post.length := by
      rw [hfile]
      simp only [List.length_append, List.length_cons]
      omega
    have hstep : value cs file h = value_line cs h line (value_loop cs h post []) := by
      unfold value
      rw [hfile, List.append_assoc, value_loop_passed cs h pre hpre (by unfold npos; omega),
        value_loop_line cs h line hline, List.nil_append]
    obtain ⟨h1, h3, hk | he⟩ := not_passed_cases cs h line hnp
    · rw [hstep, value_line_no_key cs h line _ h1 h3 hk (by unfold npos; omega)] at hr
      exact absurd hr (by simp)
    · by_cases hv : value_tail line = []
      · rw [hstep, value_line_entry_no_value cs h line _ he hv (by unfold npos; omega)] at hr
        exact absurd hr (by simp)
      · right
        obtain ⟨-, -, k, hk, -⟩ := entry_cases cs h line he
        refine ⟨pre, line, post, k, ⟨hfile, hpre, hline, he⟩, hk, hv, ?_⟩
        rw [hstep, value_line_entry cs h line k _ he hk hv (by omega)] at hr
        exact (Except.ok.inj hr).symm

theorem value_tail_head (line : Bytes) (c : Nat) (s : Bytes) (hv : value_tail line = c :: s) :
    c ≠ 32 := by
  have hne : ((line.dropWhile (fun c => decide (c = 32))).dropWhile
      (fun c => !decide (c = 32))).dropWhile (fun c => decide (c = 32)) ≠ [] := by
    intro hx
    unfold value_tail at hv
    rw [hx] at hv
    exact absurd hv (by simp)
  have h := List.head_dropWhile_not (fun c => decide (c = 32))
    ((line.dropWhile (fun c => decide (c = 32))).dropWhile (fun c => !decide (c = 32))) hne
  have hv2 : ((line.dropWhile (fun c => decide (c = 32))).dropWhile
      (fun c => !decide (c = 32))).dropWhile (fun c => decide (c = 32)) = c :: s := hv
  simp only [hv2, List.head_cons] at h
  simpa using h

/-- C19. Well-formed found records: a record returned with found = true has
`check_sum = h`, a key that is non-empty, holds no space and hashes to `h`,
and a value that is non-empty, starts with a non-space character and has no
space, `'#'`, `'\r'` or `'\n'` after its first character. -/
theorem found_record_well_formed (cs : Bytes → Nat) (file : Bytes) (h : Nat)
    (r : ConfigValue) (hsize : file.length < 2147483648)
    (hr : value cs file h = .ok r) (hfound : r.found = true) :
    r.check_sum = h ∧ r.key ≠ [] ∧ 32 ∉ r.key ∧ cs r.key = h ∧
      ∃ c t, r.value = c :: t ∧ c ≠ 32 ∧ ∀ x ∈ t, x ≠ 32 ∧ x ≠ 35 ∧ x ≠ 13 ∧ x ≠ 10 := by
  rcases value_cases cs file h r hsize hr with ⟨hnf, -⟩ | ⟨pre, line, post, k, hf, hk, hv, hrec⟩
  · rw [hnf] at hfound
    exact absurd hfound (by simp)
  · obtain ⟨a, g, -, -, hkk, hk0, -, -⟩ := line_shape line k hk hv
    obtain ⟨-, -, k2, hk2, hck⟩ := entry_cases cs h line hf.2.2.2
    obtain rfl : k2 = k := Option.some.inj (hk2.symm.trans hk)
    obtain ⟨c, s, hcs⟩ := List.exists_cons_of_ne_nil hv
    have hrv : read_value line = c :: s.takeWhile (fun x => !reader_stop x) := by
      unfold read_value; rw [hcs]
    rw [hrec]
    refine ⟨rfl, hk0, fun hx => hkk 32 hx rfl, hck, c, _, hrv, value_tail_head line c s hcs, ?_⟩
    intro x hx
    have hp := List.mem_takeWhile_imp hx
    simp only [reader_stop, Bool.not_eq_true', Bool.or_eq_false_iff,
      decide_eq_false_iff_not] at hp
    exact ⟨hp.2.2.2, hp.2.2.1, hp.1, hp.2.1⟩

/-- C19 on the file `# c\n  foo   1.19#x\n` with hash("foo"). -/
theorem found_record_well_formed_witness :
    sample_checksum [102, 111, 111] = sample_checksum [102, 111, 111] ∧
      ([102, 111, 111] : Bytes) ≠ [] ∧ 32 ∉ ([102, 111, 111] : Bytes) ∧
      sample_checksum [102, 111, 111] = sample_checksum [102, 111, 111] ∧
      ∃ c t, ([49, 46, 49, 57] : Bytes) = c :: t ∧ c ≠ 32 ∧
        ∀ x ∈ t, x ≠ 32 ∧ x ≠ 35 ∧ x ≠ 13 ∧ x ≠ 10 :=
  found_record_well_formed sample_checksum
    [35, 32, 99, 10, 32, 32, 102, 111, 111, 32, 32, 32, 49, 46, 49, 57, 35, 120, 10]
    (sample_checksum [102, 111, 111])
    ⟨sample_checksum [102, 111, 111], true, [102, 111, 111], [49, 46, 49, 57]⟩
    (by decide) rfl rfl

/-- C18. Reader and writer select the same line: when both `set_string(h, v)`
and `Config::value(h)` complete on a file, the writer ends with its
key-not-found message (`ERROR:`, U+00A0, `configuration key not found`) exactly
when the reader returns found = false; and when the reader finds a record, its key and value come from
the first entry for `h`, at line start `(unlines pre).length`, and the writer's
outcome is the test or the overwrite of the value span of that same line. -/
theorem reader_writer_same_line (cs : Bytes → Nat) (file : Bytes) (h : Nat) (v : Bytes)
    (e : Effect) (r : ConfigValue) (hsize : file.length < 2147483648)
    (hvl : v.length < 2147483648) (hw : set_string cs file h v = .ok e)
    (hr : value cs file h = .ok r) :
    (e.serial = ["ERROR:\u00a0configuration key not found\r\n"] ↔ r.found = false) ∧
      (r.found = true → ∃ pre line post k, first_entry cs h pre line post file ∧
        key_of line = some k ∧ r.key = k ∧ r.value = read_value line ∧
        e = if after_span line = [] ∨ (value_span line).length ≤ v.length then
            ⟨file, ["ERROR: Not enough room for value\r\n"]⟩
          else
            ⟨fputs_at file ((unlines pre).length + value_offset line)
              (pad v ((value_span line).length : Nat)), []⟩) := by
  rcases value_cases cs file h r hsize hr with
    ⟨hnf, pre, last, hfile, hpre, hlast⟩ | ⟨pre, line, post, k, hf, hk, hv, hrec⟩
  · rw [set_string_all_passed cs h pre last file v hfile hpre hlast hsize] at hw
    have he := Except.ok.inj hw
    rw [← he, hnf]
    exact ⟨⟨fun _ => rfl, fun _ => rfl⟩, fun hx => absurd hx (by simp)⟩
  · rw [set_string_first_entry cs h pre line post file v hf hv hsize hvl] at hw
    have hfound : r.found = true := by rw [hrec]
    constructor
    · constructor
      · intro hs
        exfalso
        split_ifs at hw
        · have he := Except.ok.inj hw
          rw [← he] at hs
          have hs2 : ["ERROR: Not enough room for value\r\n"] =
              ["ERROR:\u00a0configuration key not found\r\n"] := hs
          exact absurd hs2 (by decide)
        · have he := Except.ok.inj hw
          rw [← he] at hs
          have hs2 : ([] : List String) = ["ERROR:\u00a0configuration key not found\r\n"] := hs
          exact absurd hs2 (by decide)
      · intro hx
        rw [hfound] at hx
        exact absurd hx (by simp)
    · intro _
      refine ⟨pre, line, post, k, hf, hk, by rw [hrec], by rw [hrec], ?_⟩
      split_ifs at hw ⊢
      · exact (Except.ok.inj hw).symm
      · exact (Except.ok.inj hw).symm

/-- C18 on the file `foo 100 #c\n` with the value `25`: the reader finds
`foo` = `100` and the writer overwrites the span of that line. -/
theorem reader_writer_same_line_witness :
    set_string sample_checksum [102, 111, 111, 32, 49, 48, 48, 32, 35, 99, 10]
        (sample_checksum [102, 111, 111]) [50, 53] =
      .ok ⟨[102, 111, 111, 32, 50, 53, 32, 32, 35, 99, 10], []⟩ ∧
    (([] : List String) = ["ERROR:\u00a0configuration key not found\r\n"] ↔ true = false) :=
  ⟨rfl, (reader_writer_same_line sample_checksum
    [102, 111, 111, 32, 49, 48, 48, 32, 35, 99, 10] (sample_checksum [102, 111, 111])
    [50, 53] ⟨[102, 111, 111, 32, 50, 53, 32, 32, 35, 99, 10], []⟩
    ⟨sample_checksum [102, 111, 111], true, [102, 111, 111], [49, 48, 48]⟩
    (by decide) (by decide) rfl rfl).1⟩

/-! ## The writer on a line that carries its own terminator -/

end Smoothie
